import Mathlib

/-!
# ThreadSafeQueue, BigNum and Perceptron

Shallow embeddings of three classes of the repository and proofs about them.

* `ThreadSafeQueue<T>` and the `producer` driver (src/playing/coding_solution.cpp).
  Every member function takes `mutex` for the whole of its body, so a body is one
  atomic transition on the protected state; the only place where the lock is given
  up inside a body is `data_cond.wait` in `wait_and_pop`, which is modelled by a
  per-thread program counter (`Pc`) and a step function on a `System`.
* `BigNum` (src/playing/myBigNum.cpp). The digit vector is a list of integers, lowest
  digit first; `/` and `%` on `int` are the truncating `Int.tdiv` and `Int.tmod`;
  `std::string` is a list of characters; the exception of the string constructor is
  `Except.error`; the unchecked index `result.digits[i + j]` of `operator*` gives `none`
  when it lies outside the vector.
* `Perceptron` (src/playing/perceptron.cpp), with `double` read as exact rational numbers.
-/

set_option autoImplicit false

/-! ## The protected state and the member functions -/

/-- The state protected by `mutex`: the member `std::queue<T> data_queue`, front of the
queue first. The class has no other data member besides `mutex` and `data_cond`. -/
structure ThreadSafeQueue (T : Type) where
  data_queue : List T
deriving DecidableEq, Repr

namespace ThreadSafeQueue

variable {T : Type}

/-- The constructor `ThreadSafeQueue()`: `data_queue` is default-constructed. -/
def new : ThreadSafeQueue T :=
  ⟨[]⟩

/-- The member `void push(T value)`: `data_queue.push(std::move(value))` under the lock.
The call to `data_cond.notify_one()` acts on the wait set and is part of `System.step`. -/
def push (q : ThreadSafeQueue T) (value : T) : ThreadSafeQueue T :=
  ⟨q.data_queue ++ [value]⟩

/-- The member `bool try_pop(T& value)`. The argument `value` is the content of the caller's
variable before the call; the result is the returned flag, the content of the caller's
variable after the call, and the queue after the call. -/
def try_pop (q : ThreadSafeQueue T) (value : T) : Bool × T × ThreadSafeQueue T :=
  match q.data_queue with
  | [] => (false, value, q)
  | front :: rest => (true, front, ⟨rest⟩)

/-- The member `bool empty() const`, in state-passing form: the returned flag and the queue
after the call. -/
def empty (q : ThreadSafeQueue T) : Bool × ThreadSafeQueue T :=
  (q.data_queue.isEmpty, q)

end ThreadSafeQueue

/-! ## Threads inside `wait_and_pop` -/

/-- Where a thread that called `wait_and_pop` stands.
* `entry`: the call has started, `mutex` is not yet taken;
* `parked`: suspended inside `data_cond.wait`, `mutex` released;
* `woken`: unblocked (by a notification or spuriously), has to take `mutex` again and
  evaluate the predicate again;
* `returned`: the call has returned. -/
inductive Pc where
  | entry
  | parked
  | woken
  | returned
deriving DecidableEq, Repr

/-- A thread executing `wait_and_pop(T& value)`: its program counter and the content of the
variable it passed by reference. -/
structure Waiter (T : Type) where
  pc : Pc
  value : T
deriving DecidableEq, Repr

namespace ThreadSafeQueue

variable {T : Type}

/-- One locked section of `void wait_and_pop(T& value)`, run by a thread that is at `entry`
or `woken`: with `mutex` held, the predicate `!data_queue.empty()` of `data_cond.wait` is
evaluated; when it is false the thread is parked (and the lock released), when it is true
`value = std::move(data_queue.front()); data_queue.pop();` run and the call returns.
A thread that is parked or has returned cannot run a section (`none`). -/
def wait_and_pop (q : ThreadSafeQueue T) (w : Waiter T) :
    Option (Waiter T × ThreadSafeQueue T) :=
  match w.pc with
  | Pc.parked => none
  | Pc.returned => none
  | _ =>
    match q.data_queue with
    | [] => some (⟨Pc.parked, w.value⟩, q)
    | front :: rest => some (⟨Pc.returned, front⟩, ⟨rest⟩)

end ThreadSafeQueue

/-! ## Sequences of calls by one caller -/

open ThreadSafeQueue

variable {T : Type}

/-- The calls `push(v1); ...; push(vn)` in this order. -/
def pushAll (q : ThreadSafeQueue T) : List T → ThreadSafeQueue T
  | [] => q
  | v :: vs => pushAll (q.push v) vs

/-- The first `n` of a series of `try_pop(value)` calls on the same variable: the list of
(returned flag, content of `value` after the call) in call order, then the content of the
variable and the queue after the last call. -/
def popN : Nat → ThreadSafeQueue T → T → List (Bool × T) × T × ThreadSafeQueue T
  | 0, q, value => ([], value, q)
  | n + 1, q, value =>
    let r := q.try_pop value
    let rest := popN n r.2.2 r.2.1
    ((r.1, r.2.1) :: rest.1, rest.2.1, rest.2.2)

/-- The loop `while (queue.try_pop(value)) popped.push_back(value);` bounded by `fuel`
iterations: the values popped (appended to `popped`), the content of `value` and the queue
when `try_pop` returned false; `none` when the fuel ran out before that. -/
def drain : Nat → ThreadSafeQueue T → T → List T → Option (List T × T × ThreadSafeQueue T)
  | 0, _, _, _ => none
  | fuel + 1, q, value, popped =>
    match q.try_pop value with
    | (true, v, q1) => drain fuel q1 v (popped ++ [v])
    | (false, v, q1) => some (popped, v, q1)

/-- A call made on the queue by some thread: `push(value)` or `try_pop(...)`. -/
inductive Call (T : Type) where
  | push (value : T)
  | try_pop
deriving DecidableEq, Repr

/-- The values of the `push` calls of a sequence of calls, in call order. -/
def pushedValues : List (Call T) → List T
  | [] => []
  | Call.push v :: cs => v :: pushedValues cs
  | Call.try_pop :: cs => pushedValues cs

/-- The calls of a sequence applied one at a time; `popped` collects the values of the
`try_pop` calls that returned true, `value` is the variable the pops write to. -/
def runCalls : List (Call T) → ThreadSafeQueue T → T → List T →
    List T × T × ThreadSafeQueue T
  | [], q, value, popped => (popped, value, q)
  | Call.push v :: cs, q, value, popped => runCalls cs (q.push v) value popped
  | Call.try_pop :: cs, q, value, popped =>
    match q.try_pop value with
    | (true, v, q1) => runCalls cs q1 v (popped ++ [v])
    | (false, v, q1) => runCalls cs q1 v popped

/-! ## The queue together with the threads inside `wait_and_pop` -/

/-- The queue and the threads that have called `wait_and_pop` on it, indexed by position.
The wait set of `data_cond` is the set of threads whose program counter is `parked`. -/
structure System (T : Type) where
  queue : ThreadSafeQueue T
  waiters : List (Waiter T)
deriving DecidableEq, Repr

/-- An atomic step of the system.
* `push value wake`: some other thread calls `push(value)`; `wake` is the thread that
  `notify_one` unblocks when the wait set is not empty;
* `try_pop value`: some other thread calls `try_pop` on a variable holding `value`;
* `run t`: thread `t` takes `mutex` and runs a locked section of `wait_and_pop`;
* `spurious t`: the parked thread `t` is unblocked without a notification. -/
inductive Event (T : Type) where
  | push (value : T) (wake : Nat)
  | try_pop (value : T)
  | run (t : Nat)
  | spurious (t : Nat)
deriving DecidableEq, Repr

/-- Whether some thread is suspended in `data_cond.wait`. -/
def anyParked (ws : List (Waiter T)) : Bool :=
  ws.any (fun w => decide (w.pc = Pc.parked))

/-- Thread `t` leaves `data_cond.wait`; `none` when `t` is not a parked thread. -/
def unblock (ws : List (Waiter T)) (t : Nat) : Option (List (Waiter T)) :=
  match ws[t]? with
  | some w => if w.pc = Pc.parked then some (ws.set t ⟨Pc.woken, w.value⟩) else none
  | none => none

/-- The call `data_cond.notify_one()`: when threads are waiting, one of them, `wake`, is
unblocked (`none` when `wake` is not one of them); when none is waiting, nothing happens. -/
def notify_one (ws : List (Waiter T)) (wake : Nat) : Option (List (Waiter T)) :=
  if anyParked ws then unblock ws wake else some ws

namespace System

/-- The effect of one event, `none` when the event cannot happen in this state. -/
def step (s : System T) : Event T → Option (System T)
  | Event.push value wake =>
    match notify_one s.waiters wake with
    | some ws => some ⟨s.queue.push value, ws⟩
    | none => none
  | Event.try_pop value => some ⟨(s.queue.try_pop value).2.2, s.waiters⟩
  | Event.run t =>
    match s.waiters[t]? with
    | some w =>
      match s.queue.wait_and_pop w with
      | some (w1, q1) => some ⟨q1, s.waiters.set t w1⟩
      | none => none
    | none => none
  | Event.spurious t =>
    match unblock s.waiters t with
    | some ws => some ⟨s.queue, ws⟩
    | none => none

/-- The effect of a sequence of events, `none` when one of them cannot happen. -/
def run (s : System T) : List (Event T) → Option (System T)
  | [] => some s
  | e :: es =>
    match s.step e with
    | some s1 => run s1 es
    | none => none

end System

/-- Whether an event is a call to `push`. -/
def Event.isPush : Event T → Bool
  | Event.push _ _ => true
  | _ => false

/-! ## The producers of the demonstration harness -/

/-- The constant `num_producers` of `main`. -/
def num_producers : Nat := 3

/-- The constant `items_per_producer` of `main`. -/
def items_per_producer : Nat := 5

/-- The constant `total_items` of `main`. -/
def total_items : Nat := num_producers * items_per_producer

/-- The queue of `main` and, for every producer thread (by `id`), its loop counter `i`. -/
structure Harness where
  queue : ThreadSafeQueue Int
  next : Nat → Nat

/-- The state of `main` when the threads start: an empty queue, every loop counter 0. -/
def Harness.init : Harness :=
  ⟨ThreadSafeQueue.new, fun _ => 0⟩

/-- One iteration of the loop of `producer(queue, id, num_items)`:
`int value = id * 1000 + i; queue.push(value);` and `i++`. Once `i < num_items` fails the
thread has left the loop and makes no call. The values stay far inside the range of `int`
for the ids and counts of `main`. -/
def producerStep (num_items : Nat) (id : Nat) (h : Harness) : Harness :=
  if h.next id < num_items then
    ⟨h.queue.push ((id : Int) * 1000 + (h.next id : Int)),
      Function.update h.next id (h.next id + 1)⟩
  else h

/-- The producers scheduled in the order `sched`: each entry lets that producer run one
iteration of its loop. -/
def runProducers (num_items : Nat) : List Nat → Harness → Harness
  | [], h => h
  | id :: sched, h => runProducers num_items sched (producerStep num_items id h)

/-- A schedule in which each of the producers 0, 1, 2 runs exactly `items_per_producer`
iterations and nobody else runs: an interleaving of the three producers. -/
def isInterleaving (sched : List Nat) : Bool :=
  sched.all (fun id => decide (id < num_producers)) &&
    (List.range num_producers).all (fun id => decide (sched.count id = items_per_producer))

/-! ## BigNum (src/playing/myBigNum.cpp) -/

/-- The data members of `class BigNum`: `digits` holds the decimal digits, lowest first
(index 0 is the units digit), `isNegative` the sign flag. -/
structure BigNum where
  digits : List Int
  isNegative : Bool
deriving DecidableEq, Repr

namespace BigNum

/-- The loop `while (digits.size() > 1 && digits.back() == 0) digits.pop_back();`. -/
def removeLeadingZerosLoop (digits : List Int) : List Int :=
  if 1 < digits.length ∧ digits.getLast? = some 0 then
    removeLeadingZerosLoop digits.dropLast
  else digits
termination_by digits.length
decreasing_by
  simp only [List.length_dropLast]
  omega

/-- The member `void removeLeadingZeros()`: the loop, then
`if (digits.size() == 1 && digits[0] == 0) isNegative = false;`. -/
def removeLeadingZeros (x : BigNum) : BigNum :=
  let digits := removeLeadingZerosLoop x.digits
  if digits.length = 1 ∧ digits[0]? = some 0 then ⟨digits, false⟩ else ⟨digits, x.isNegative⟩

/-- The default constructor `BigNum()`. -/
def new : BigNum :=
  ⟨[0], false⟩

/-- A `long long` result reduced into the range of the type: wrap-around modulo 2^64. -/
def wrap64 (x : Int) : Int :=
  (x + 2 ^ 63) % 2 ^ 64 - 2 ^ 63

/-- The loop `while (num > 0) { digits.push_back(num % 10); num /= 10; }`. -/
def ofLongLongLoop (num : Int) (digits : List Int) : List Int :=
  if 0 < num then ofLongLongLoop (num.tdiv 10) (digits ++ [num.tmod 10]) else digits
termination_by num.toNat
decreasing_by
  have h1 : num.tdiv 10 = num / 10 := Int.tdiv_eq_ediv (by omega) (by omega)
  rw [h1]
  omega

/-- The constructor `BigNum(long long num)`, for `num` in the range of `long long`; the
negation `num = -num` wraps around. -/
def ofLongLong (num : Int) : BigNum :=
  let isNegative := decide (num < 0)
  let num1 := if num < 0 then wrap64 (-num) else num
  if num1 = 0 then ⟨[0], isNegative⟩ else ⟨ofLongLongLoop num1 [], isNegative⟩

/-- The test `std::isdigit(c)`. -/
def isdigit (c : Char) : Bool :=
  decide (48 ≤ c.toNat ∧ c.toNat ≤ 57)

/-- The loop `for (int i = numStr.size() - 1; i >= start; --i)` of the string constructor,
over the characters `numStr[i]` in the order the loop visits them: a character that is not
a digit throws `std::invalid_argument`, a digit is pushed as `numStr[i] - 48`. -/
def parseLoop : List Char → List Int → Except String (List Int)
  | [], digits => Except.ok digits
  | c :: cs, digits =>
    if isdigit c = false then Except.error "Invalid character in number string"
    else parseLoop cs (digits ++ [(c.toNat : Int) - 48])

/-- The constructor `BigNum(const std::string& numStr)`; `Except.error` is the exception
`std::invalid_argument` with its message. -/
def ofString (numStr : List Char) : Except String BigNum :=
  match numStr with
  | [] => Except.ok ⟨[0], false⟩
  | c0 :: _ =>
    let isNegative := decide (c0 = '-')
    let start : Nat := if isNegative = true ∨ c0 = '+' then 1 else 0
    if start ≥ numStr.length then Except.ok ⟨[0], false⟩
    else
      match parseLoop (numStr.drop start).reverse [] with
      | Except.error e => Except.error e
      | Except.ok digits => Except.ok (removeLeadingZeros ⟨digits, isNegative⟩)

/-- The loop of `operator+`: `for (i = 0; i < maxSize || carry; ++i)` with
`maxSize = std::max(digits.size(), other.digits.size())`, from index `i` on. -/
def addLoop (a b : List Int) (i : Nat) (carry : Int) (result : List Int) : List Int :=
  if i < max a.length b.length ∨ carry ≠ 0 then
    let sum := carry + (if i < a.length then a.getD i 0 else 0) +
      (if i < b.length then b.getD i 0 else 0)
    addLoop a b (i + 1) (sum.tdiv 10) (result ++ [sum.tmod 10])
  else result
termination_by (max a.length b.length - i, carry.natAbs)
decreasing_by
  rename_i h
  by_cases hi : i < max a.length b.length
  · apply Prod.Lex.left
    omega
  · have hc : carry ≠ 0 := by
      rcases h with h | h
      · exact absurd h hi
      · exact h
    have ha : ¬ i < a.length := by omega
    have hb : ¬ i < b.length := by omega
    have h0 : max a.length b.length - (i + 1) = max a.length b.length - i := by omega
    simp only [ha, hb, h0, dite_false, if_false, add_zero]
    apply Prod.Lex.right
    simp only [Int.natAbs_tdiv]
    have hpos : 0 < carry.natAbs := Int.natAbs_pos.mpr hc
    show carry.natAbs / 10 < carry.natAbs
    exact Nat.div_lt_self hpos (by decide)

/-- The loop of `absoluteSubtract`: `for (i = 0; i < a.digits.size(); ++i)`, with the
number of iterations left, the index, the borrow and the digits pushed so far. -/
def absoluteSubtractLoop (a b : List Int) : Nat → Nat → Int → List Int → List Int
  | 0, _, _, result => result
  | n + 1, i, borrow, result =>
    let diff := a.getD i 0 - borrow - (if i < b.length then b.getD i 0 else 0)
    if diff < 0 then absoluteSubtractLoop a b n (i + 1) 1 (result ++ [diff + 10])
    else absoluteSubtractLoop a b n (i + 1) 0 (result ++ [diff])

/-- The static member `absoluteSubtract(a, b)`. -/
def absoluteSubtract (a b : BigNum) : BigNum :=
  removeLeadingZeros ⟨absoluteSubtractLoop a.digits b.digits a.digits.length 0 0 [], false⟩

/-- The loop of `compareAbsoluteValue`: `for (int i = digits.size() - 1; i >= 0; --i)`,
with `i + 1` as the argument. -/
def compareLoop (a b : List Int) : Nat → Int
  | 0 => 0
  | i + 1 =>
    if a.getD i 0 ≠ b.getD i 0 then (if a.getD i 0 > b.getD i 0 then 1 else -1)
    else compareLoop a b i

/-- The member `int compareAbsoluteValue(const BigNum& other)`. -/
def compareAbsoluteValue (x other : BigNum) : Int :=
  if x.digits.length ≠ other.digits.length then
    (if x.digits.length > other.digits.length then 1 else -1)
  else compareLoop x.digits other.digits x.digits.length

/-- The part of `operator+` after the sign test: both operands have the same sign. -/
def addSameSign (x other : BigNum) : BigNum :=
  removeLeadingZeros ⟨addLoop x.digits other.digits 0 0 [], x.isNegative⟩

/-- The part of `operator-` after the sign test: both operands have the same sign. -/
def subSameSign (x other : BigNum) : BigNum :=
  if compareAbsoluteValue x other < 0 then
    removeLeadingZeros ⟨(absoluteSubtract other x).digits, !x.isNegative⟩
  else
    removeLeadingZeros ⟨(absoluteSubtract x other).digits, x.isNegative⟩

mutual

/-- The member `operator+`. -/
def add (x other : BigNum) : BigNum :=
  if x.isNegative ≠ other.isNegative then
    if x.isNegative = true then sub other ⟨x.digits, false⟩
    else sub x ⟨other.digits, false⟩
  else addSameSign x other
termination_by (if x.isNegative ≠ other.isNegative then 1 else 0 : Nat)
decreasing_by
  all_goals simp_wf
  all_goals simp_all

/-- The member `operator-`. -/
def sub (x other : BigNum) : BigNum :=
  if x.isNegative ≠ other.isNegative then
    if x.isNegative = true then ⟨(add ⟨x.digits, false⟩ other).digits, true⟩
    else add x ⟨other.digits, false⟩
  else subSameSign x other
termination_by (if x.isNegative ≠ other.isNegative then 1 else 0 : Nat)
decreasing_by
  all_goals simp_wf
  all_goals simp_all

end

/-- The inner loop of `operator*`: `for (j = 0; j < other.digits.size() || carry; ++j)` for
the digit `ai = digits[i]`, from index `j` on; `none` when `result.digits[i + j]` lies
outside the vector. -/
def mulInner (ai : Int) (b : List Int) (i j : Nat) (carry : Int) (result : List Int) :
    Option (List Int) :=
  if j < b.length ∨ carry ≠ 0 then
    if i + j < result.length then
      let product := result.getD (i + j) 0 + carry +
        (if j < b.length then ai * b.getD j 0 else 0)
      mulInner ai b i (j + 1) (product.tdiv 10) (result.set (i + j) (product.tmod 10))
    else none
  else some result
termination_by result.length - (i + j)
decreasing_by
  simp only [List.length_set]
  omega

/-- The outer loop of `operator*`: `for (i = 0; i < digits.size(); ++i)`, with the number
of iterations left and the index. -/
def mulOuter (a b : List Int) : Nat → Nat → List Int → Option (List Int)
  | 0, _, result => some result
  | n + 1, i, result =>
    match mulInner (a.getD i 0) b i 0 0 result with
    | none => none
    | some r => mulOuter a b n (i + 1) r

/-- The member `operator*`; `none` when the loops index `result.digits` outside the vector. -/
def mul (x other : BigNum) : Option BigNum :=
  if (x.digits.length = 1 ∧ x.digits[0]? = some 0) ∨
      (other.digits.length = 1 ∧ other.digits[0]? = some 0) then
    some (ofLongLong 0)
  else
    match mulOuter x.digits other.digits x.digits.length 0
        (List.replicate (x.digits.length + other.digits.length) 0) with
    | none => none
    | some digits =>
      some (removeLeadingZeros ⟨digits, decide (x.isNegative ≠ other.isNegative)⟩)

/-- The call `std::to_string(d)` on an `int`. -/
def to_string (d : Int) : List Char :=
  (toString d).toList

/-- The member `std::string toString() const`. -/
def toString (x : BigNum) : List Char :=
  if x.digits.isEmpty then ['0']
  else (if x.isNegative then ['-'] else []) ++ (x.digits.reverse.map to_string).flatten

end BigNum

/-! ## What a `BigNum` and a decimal string denote -/

namespace BigNum

/-- The natural number written by a digit vector, lowest digit first. -/
def digitsValue : List Int → Int
  | [] => 0
  | d :: ds => d + 10 * digitsValue ds

/-- The integer denoted by a `BigNum`. -/
def toInt (x : BigNum) : Int :=
  if x.isNegative then -digitsValue x.digits else digitsValue x.digits

/-- Every digit lies in 0..9. -/
def DigitsInRange (ds : List Int) : Prop :=
  ∀ d ∈ ds, 0 ≤ d ∧ d ≤ 9

/-- Normal form: at least one digit, every digit in 0..9, no leading zero digit unless the
value is the single digit 0, and zero is never negative. -/
def NormalForm (x : BigNum) : Prop :=
  x.digits ≠ [] ∧ DigitsInRange x.digits ∧
    (1 < x.digits.length → x.digits.getLast? ≠ some 0) ∧
    (x.digits = [0] → x.isNegative = false)

instance (ds : List Int) : Decidable (DigitsInRange ds) := by
  unfold DigitsInRange
  infer_instance

instance (x : BigNum) : Decidable (NormalForm x) := by
  unfold NormalForm
  infer_instance


/-- The character of a decimal digit. -/
def digitChar (d : Int) : Char :=
  Char.ofNat (d.toNat + 48)

/-- The characters of a string after its optional leading '-' or '+'. -/
def afterSign : List Char → List Char
  | [] => []
  | c :: cs => if c = '-' ∨ c = '+' then cs else c :: cs

/-- A string made of an optional '+' or '-' followed by one or more decimal digits. -/
def isSignedDecimal (s : List Char) : Prop :=
  afterSign s ≠ [] ∧ ∀ c ∈ afterSign s, isdigit c = true

/-- The number written by a string of decimal digits, highest digit first. -/
def decimalValue (cs : List Char) : Int :=
  cs.foldl (fun acc c => 10 * acc + ((c.toNat : Int) - 48)) 0

/-- The integer a signed decimal string denotes. -/
def denoted (s : List Char) : Int :=
  if s.head? = some '-' then -decimalValue (afterSign s) else decimalValue (afterSign s)

/-- A canonical decimal representation: a signed decimal string with no '+', no leading
zeros, and "0" rather than "-0". -/
def isCanonical (s : List Char) : Prop :=
  isSignedDecimal s ∧ s.head? ≠ some '+' ∧
    (afterSign s = ['0'] ∨ (afterSign s).head? ≠ some '0') ∧
    (afterSign s = ['0'] → s.head? ≠ some '-')

instance (s : List Char) : Decidable (isSignedDecimal s) := by
  unfold isSignedDecimal
  infer_instance

instance (s : List Char) : Decidable (isCanonical s) := by
  unfold isCanonical
  infer_instance

end BigNum

/-! ## Perceptron (src/playing/perceptron.cpp) -/

/-- The data members of `class Perceptron`, with `double` read as exact rational numbers. -/
structure Perceptron where
  weights : List ℚ
  bias : ℚ
  learning_rate : ℚ
deriving DecidableEq

namespace Perceptron

/-- The member `int step_function(double x)`: `(x >= 0) ? 1 : 0`. -/
def step_function (x : ℚ) : Int :=
  if x ≥ 0 then 1 else 0

/-- The call `std::inner_product(first1, last1, first2, init)`: the accumulator starts at
`init` and takes `acc = acc + (*first1) * (*first2)` along the two ranges. -/
def inner_product : List ℚ → List ℚ → ℚ → ℚ
  | x :: xs, w :: ws, acc => inner_product xs ws (acc + x * w)
  | _, _, acc => acc

/-- The member `int predict(const std::vector<double>& inputs)`. -/
def predict (p : Perceptron) (inputs : List ℚ) : Int :=
  if inputs.length ≠ p.weights.length then -1
  else step_function (inner_product inputs p.weights 0 + p.bias)

/-- The loop `for (i = 0; i < weights.size(); ++i) weights[i] += learning_rate * error *
inputs[i];` from index `i` on, over the weights not yet visited; `none` when `inputs[i]` is
read outside `inputs`. -/
def updateWeights (learning_rate error : ℚ) (inputs : List ℚ) : Nat → List ℚ → Option (List ℚ)
  | _, [] => some []
  | i, w :: ws =>
    match inputs[i]? with
    | none => none
    | some x =>
      match updateWeights learning_rate error inputs (i + 1) ws with
      | none => none
      | some rest => some ((w + learning_rate * error * x) :: rest)

/-- The member `void train(const std::vector<double>& inputs, int target)`: the perceptron
after the call, `none` when the loop reads outside `inputs`. The `int` difference
`target - prediction` is taken exactly. -/
def train (p : Perceptron) (inputs : List ℚ) (target : Int) : Option Perceptron :=
  let prediction := p.predict inputs
  let error : ℚ := ((target - prediction : Int) : ℚ)
  match updateWeights p.learning_rate error inputs 0 p.weights with
  | none => none
  | some ws => some ⟨ws, p.bias + p.learning_rate * error, p.learning_rate⟩

end Perceptron

/-! ## Invariants used in the proofs -/

/-- The states in which the queue is empty and every thread is still inside `wait_and_pop`,
parked or unblocked. -/
def allBlocked (s : System T) : Prop :=
  s.queue.data_queue = [] ∧ ∀ w ∈ s.waiters, w.pc = Pc.parked ∨ w.pc = Pc.woken

/-- What holds of the harness while the producers run: the queue holds no value twice, it
holds exactly the values `id * 1000 + i` with `i` below the loop counter of producer `id`,
and no loop counter exceeds `n`. -/
def producerInv (n : Nat) (h : Harness) : Prop :=
  h.queue.data_queue.Nodup ∧
    (∀ x : Int, x ∈ h.queue.data_queue ↔
      ∃ id i : Nat, i < h.next id ∧ x = (id : Int) * 1000 + (i : Int)) ∧
    ∀ id, h.next id ≤ n

/-! ## Basic facts -/

namespace ThreadSafeQueue

theorem push_data (q : ThreadSafeQueue T) (v : T) :
    (q.push v).data_queue = q.data_queue ++ [v] := rfl

theorem try_pop_nil (value : T) : try_pop (⟨[]⟩ : ThreadSafeQueue T) value = (false, value, ⟨[]⟩) :=
  rfl

theorem try_pop_cons (x : T) (xs : List T) (value : T) :
    try_pop (⟨x :: xs⟩ : ThreadSafeQueue T) value = (true, x, ⟨xs⟩) := rfl

end ThreadSafeQueue

theorem pushAll_data (vs : List T) (q : ThreadSafeQueue T) :
    (pushAll q vs).data_queue = q.data_queue ++ vs := by
  induction vs generalizing q with
  | nil => simp [pushAll]
  | cons v vs ih => simp [pushAll, ih, ThreadSafeQueue.push_data]

theorem popN_append (xs ys : List T) (d : T) :
    popN xs.length (⟨xs ++ ys⟩ : ThreadSafeQueue T) d =
      (xs.map (fun v => (true, v)), xs.foldl (fun _ v => v) d, ⟨ys⟩) := by
  induction xs generalizing d with
  | nil => simp [popN]
  | cons x xs ih =>
    simp [popN, ThreadSafeQueue.try_pop_cons, ih]

theorem drain_data (xs : List T) (fuel : Nat) (d : T) (popped : List T)
    (hfuel : xs.length < fuel) :
    drain fuel (⟨xs⟩ : ThreadSafeQueue T) d popped =
      some (popped ++ xs, xs.foldl (fun _ v => v) d, ⟨[]⟩) := by
  induction xs generalizing fuel d popped with
  | nil =>
    cases fuel with
    | zero => simp at hfuel
    | succ n => simp [drain, ThreadSafeQueue.try_pop_nil]
  | cons x xs ih =>
    cases fuel with
    | zero => simp at hfuel
    | succ n =>
      simp only [drain, ThreadSafeQueue.try_pop_cons]
      rw [ih n x (popped ++ [x]) (by simpa using hfuel)]
      simp

theorem runCalls_invariant (cs : List (Call T)) (q : ThreadSafeQueue T) (d : T)
    (popped : List T) :
    (runCalls cs q d popped).1 ++ (runCalls cs q d popped).2.2.data_queue =
      popped ++ q.data_queue ++ pushedValues cs := by
  induction cs generalizing q d popped with
  | nil => simp [runCalls, pushedValues]
  | cons c cs ih =>
    cases c with
    | push v => simp [runCalls, pushedValues, ih, ThreadSafeQueue.push_data]
    | try_pop =>
      obtain ⟨xs⟩ := q
      cases xs with
      | nil => simp [runCalls, pushedValues, ih, ThreadSafeQueue.try_pop_nil]
      | cons x xs => simp [runCalls, pushedValues, ih, ThreadSafeQueue.try_pop_cons]

theorem pushedValues_length_le (cs : List (Call T)) : (pushedValues cs).length ≤ cs.length := by
  induction cs with
  | nil => simp [pushedValues]
  | cons c cs ih => cases c <;> simp [pushedValues] <;> omega

/-! ## FIFO order, no loss, no duplication -/

/-- C1. Starting from a newly constructed queue, `push(v1), ..., push(vn)` followed by `n`
calls of `try_pop`: every one of the `n` calls returns true and the i-th call leaves `vi`
in the caller's variable; one further `try_pop` returns false. -/
theorem fifo_push_then_pop (vs : List T) (d : T) :
    (popN vs.length (pushAll (ThreadSafeQueue.new : ThreadSafeQueue T) vs) d).1 =
        vs.map (fun v => (true, v)) ∧
      (ThreadSafeQueue.try_pop (popN vs.length (pushAll ThreadSafeQueue.new vs) d).2.2
        (popN vs.length (pushAll ThreadSafeQueue.new vs) d).2.1).1 = false := by
  have hq : pushAll (ThreadSafeQueue.new : ThreadSafeQueue T) vs = ⟨vs ++ []⟩ := by
    have h := pushAll_data vs (ThreadSafeQueue.new : ThreadSafeQueue T)
    cases hp : pushAll (ThreadSafeQueue.new : ThreadSafeQueue T) vs with
    | mk xs => rw [hp] at h; simpa [ThreadSafeQueue.new] using h
  rw [hq, popN_append]
  exact ⟨rfl, rfl⟩

/-- C2. For every sequence of `push` and `try_pop` calls applied one at a time to a newly
constructed queue and followed by `try_pop` calls until one returns false (which happens
within any fuel larger than the number of calls), the values of the successful pops, in pop
order, are the pushed values in push order; so the two multisets are equal and the queue
ends empty. -/
theorem no_loss_no_duplication (cs : List (Call T)) (d : T) (fuel : Nat)
    (hfuel : cs.length < fuel) :
    ∃ popped v q,
      drain fuel (runCalls cs ThreadSafeQueue.new d []).2.2 (runCalls cs ThreadSafeQueue.new d []).2.1
          (runCalls cs ThreadSafeQueue.new d []).1 = some (popped, v, q) ∧
        popped = pushedValues cs ∧
        (popped : Multiset T) = (pushedValues cs : Multiset T) ∧
        q.data_queue = [] := by
  have hinv := runCalls_invariant cs (ThreadSafeQueue.new : ThreadSafeQueue T) d []
  have hlen := pushedValues_length_le cs
  generalize runCalls cs (ThreadSafeQueue.new : ThreadSafeQueue T) d [] = r at hinv
  obtain ⟨popped1, v1, ⟨xs⟩⟩ := r
  simp only [ThreadSafeQueue.new, List.nil_append] at hinv
  have hx : xs.length < fuel := by
    have h := congrArg List.length hinv
    simp only [List.length_append] at h
    omega
  refine ⟨popped1 ++ xs, _, ⟨[]⟩, drain_data xs fuel v1 popped1 hx, hinv, ?_, rfl⟩
  rw [hinv]

/-- A run of C2: push 1, pop, pop (fails), push 2, push 3, pop, then the drain. -/
theorem no_loss_no_duplication_witness :
    ∃ popped v q,
      drain 7 (runCalls [Call.push 1, Call.try_pop, Call.try_pop, Call.push 2, Call.push 3,
            Call.try_pop] (ThreadSafeQueue.new : ThreadSafeQueue Nat) 0 []).2.2
          (runCalls [Call.push 1, Call.try_pop, Call.try_pop, Call.push 2, Call.push 3,
            Call.try_pop] (ThreadSafeQueue.new : ThreadSafeQueue Nat) 0 []).2.1
          (runCalls [Call.push 1, Call.try_pop, Call.try_pop, Call.push 2, Call.push 3,
            Call.try_pop] (ThreadSafeQueue.new : ThreadSafeQueue Nat) 0 []).1 =
          some (popped, v, q) ∧
        popped = pushedValues [Call.push 1, Call.try_pop, Call.try_pop, Call.push 2,
          Call.push 3, Call.try_pop] ∧
        (popped : Multiset Nat) = (pushedValues [Call.push 1, Call.try_pop, Call.try_pop,
          Call.push 2, Call.push 3, Call.try_pop] : Multiset Nat) ∧
        q.data_queue = [] :=
  no_loss_no_duplication [Call.push 1, Call.try_pop, Call.try_pop, Call.push 2, Call.push 3,
    Call.try_pop] 0 7 (by decide)

/-! ## `try_pop`, `push`, `empty`, `wait_and_pop` one call at a time -/

/-- C3. `try_pop` returns false exactly when the queue holds no element, and then the queue
and the caller's variable are unchanged; when it returns true the caller's variable holds
the former head and the queue holds the former tail. -/
theorem try_pop_spec (q : ThreadSafeQueue T) (value : T) :
    ((q.try_pop value).1 = false ↔ q.data_queue = []) ∧
      ((q.try_pop value).1 = false → q.try_pop value = (false, value, q)) ∧
      ((q.try_pop value).1 = true →
        q.data_queue = (q.try_pop value).2.1 :: (q.try_pop value).2.2.data_queue) ∧
      (∀ front rest, q.data_queue = front :: rest → q.try_pop value = (true, front, ⟨rest⟩)) := by
  obtain ⟨xs⟩ := q
  cases xs with
  | nil => simp [ThreadSafeQueue.try_pop]
  | cons x xs => simp [ThreadSafeQueue.try_pop]

/-- C4, as stated, fails: `wait_and_pop` is an operation other than `push`, `try_pop` and
`empty`, and on the queue holding only 7 it returns with 7 and leaves the queue empty, so it
changes the length. -/
theorem wait_and_pop_changes_length :
    (⟨[7]⟩ : ThreadSafeQueue Nat).wait_and_pop ⟨Pc.entry, 0⟩ =
        some (⟨Pc.returned, 7⟩, ⟨[]⟩) ∧
      (⟨[]⟩ : ThreadSafeQueue Nat).data_queue.length ≠
        (⟨[7]⟩ : ThreadSafeQueue Nat).data_queue.length := by
  decide

/-- C4, amended. `push(v)` leaves the previous elements in their order followed by `v`, so
the length grows by one; `try_pop` shortens the length by one when it returns true; a failed
`try_pop` and `empty()` leave the queue unchanged; a locked section of `wait_and_pop`
either returns and shortens the length by one, or parks the thread and leaves the queue
unchanged. These are all the operations of the class. -/
theorem length_changes (q : ThreadSafeQueue T) (value : T) (w : Waiter T) :
    (q.push value).data_queue = q.data_queue ++ [value] ∧
      (q.push value).data_queue.length = q.data_queue.length + 1 ∧
      ((q.try_pop value).1 = true →
        (q.try_pop value).2.2.data_queue.length + 1 = q.data_queue.length) ∧
      ((q.try_pop value).1 = false → (q.try_pop value).2.2 = q) ∧
      q.empty.2 = q ∧
      (∀ w1 q1, q.wait_and_pop w = some (w1, q1) →
        (w1.pc = Pc.returned ∧ q1.data_queue.length + 1 = q.data_queue.length) ∨
          (w1.pc = Pc.parked ∧ q1 = q)) := by
  obtain ⟨xs⟩ := q
  obtain ⟨pc, d⟩ := w
  refine ⟨rfl, by simp [ThreadSafeQueue.push], ?_, ?_, rfl, ?_⟩
  · cases xs <;> simp [ThreadSafeQueue.try_pop]
  · cases xs <;> simp [ThreadSafeQueue.try_pop]
  · intro w1 q1 h
    cases xs <;> cases pc <;> simp [ThreadSafeQueue.wait_and_pop] at h <;>
      obtain ⟨rfl, rfl⟩ := h <;> simp

/-- C5. A locked section of `wait_and_pop` returns only from a non-empty queue, and then it
leaves in the caller's variable the value, and behind it the queue, that a successful
`try_pop` on that queue gives; on every non-empty queue a runnable thread does return, with
the head removed and the rest in order; on an empty queue it parks and changes nothing. -/
theorem wait_and_pop_spec (q : ThreadSafeQueue T) (w : Waiter T) :
    (∀ w1 q1, q.wait_and_pop w = some (w1, q1) → w1.pc = Pc.returned →
        q.data_queue ≠ [] ∧ q.try_pop w.value = (true, w1.value, q1)) ∧
      (∀ front rest, q.data_queue = front :: rest → (w.pc = Pc.entry ∨ w.pc = Pc.woken) →
        q.wait_and_pop w = some (⟨Pc.returned, front⟩, ⟨rest⟩) ∧
          q.try_pop w.value = (true, front, ⟨rest⟩)) ∧
      (q.data_queue = [] → ∀ w1 q1, q.wait_and_pop w = some (w1, q1) →
        w1 = ⟨Pc.parked, w.value⟩ ∧ q1 = q) := by
  obtain ⟨xs⟩ := q
  obtain ⟨pc, d⟩ := w
  refine ⟨?_, ?_, ?_⟩
  · intro w1 q1 h hpc
    cases xs <;> cases pc <;> simp [ThreadSafeQueue.wait_and_pop] at h <;>
      obtain ⟨rfl, rfl⟩ := h <;> simp_all [ThreadSafeQueue.try_pop]
  · intro front rest hq hpc
    simp only at hq
    subst hq
    rcases hpc with h | h <;> simp only at h <;> subst h <;>
      simp [ThreadSafeQueue.wait_and_pop, ThreadSafeQueue.try_pop]
  · intro hq w1 q1 h
    simp only at hq
    subst hq
    cases pc <;> simp [ThreadSafeQueue.wait_and_pop] at h <;>
      obtain ⟨rfl, rfl⟩ := h <;> simp

/-- C6, as stated, fails: the class has no `close()` and no closed state, and no state of the
queue rejects a push; `push(3)` changes every queue, for instance the one holding 1, 2. -/
theorem push_never_rejected :
    (∀ q : ThreadSafeQueue Nat, q.push 3 ≠ q) ∧
      (⟨[1, 2]⟩ : ThreadSafeQueue Nat).push 3 = ⟨[1, 2, 3]⟩ := by
  refine ⟨?_, rfl⟩
  intro q h
  have h2 := congrArg (fun r => r.data_queue.length) h
  simp [ThreadSafeQueue.push] at h2

/-- C6, amended. In every state of the queue `push(v)` is accepted: it appends `v` at the
tail and so changes the queue; and the elements in the queue are popped by `try_pop` in FIFO
order until the queue is empty. -/
theorem push_accepted_then_drain (q : ThreadSafeQueue T) (v d : T) :
    (q.push v).data_queue = q.data_queue ++ [v] ∧ q.push v ≠ q ∧
      (popN q.data_queue.length q d).1 = q.data_queue.map (fun x => (true, x)) ∧
      (popN q.data_queue.length q d).2.2.data_queue = [] := by
  obtain ⟨xs⟩ := q
  refine ⟨rfl, ?_, ?_, ?_⟩
  · intro h
    have h2 := congrArg (fun r => r.data_queue.length) h
    simp [ThreadSafeQueue.push] at h2
  · have h := popN_append xs [] d
    simp only [List.append_nil] at h
    simp [h]
  · have h := popN_append xs [] d
    simp only [List.append_nil] at h
    simp [h]

/-- C9. `empty()` returns true exactly when the queue holds no element and leaves the queue
unchanged; a newly constructed queue is empty; right after any `push`, `empty()` is false. -/
theorem empty_spec (q : ThreadSafeQueue T) (v : T) :
    (q.empty.1 = true ↔ q.data_queue = []) ∧ q.empty.2 = q ∧
      (ThreadSafeQueue.new : ThreadSafeQueue T).empty.1 = true ∧
      (q.push v).empty.1 = false := by
  obtain ⟨xs⟩ := q
  refine ⟨?_, rfl, rfl, ?_⟩
  · simp [ThreadSafeQueue.empty]
  · simp [ThreadSafeQueue.empty, ThreadSafeQueue.push]

/-! ## Threads blocked in `wait_and_pop` -/

theorem lt_length_of_getElem? {α : Type} {l : List α} {i : Nat} {a : α} (h : l[i]? = some a) :
    i < l.length := by
  obtain ⟨hi, _⟩ := List.getElem?_eq_some.mp h
  exact hi

theorem anyParked_of_getElem? (ws : List (Waiter T)) (t : Nat) (w : Waiter T)
    (ht : ws[t]? = some w) (hp : w.pc = Pc.parked) : anyParked ws = true := by
  simp only [anyParked, List.any_eq_true, decide_eq_true_eq]
  exact ⟨w, List.getElem?_mem ht, hp⟩

theorem unblock_parked (ws : List (Waiter T)) (t : Nat) (w : Waiter T)
    (ht : ws[t]? = some w) (hp : w.pc = Pc.parked) :
    unblock ws t = some (ws.set t ⟨Pc.woken, w.value⟩) := by
  simp [unblock, ht, hp]

theorem unblock_some (ws ws1 : List (Waiter T)) (t : Nat) (h : unblock ws t = some ws1) :
    ∃ w, ws[t]? = some w ∧ w.pc = Pc.parked ∧ ws1 = ws.set t ⟨Pc.woken, w.value⟩ := by
  unfold unblock at h
  cases hw : ws[t]? with
  | none => simp [hw] at h
  | some w =>
    simp only [hw] at h
    by_cases hp : w.pc = Pc.parked
    · simp only [hp, if_true, Option.some.injEq] at h
      exact ⟨w, rfl, hp, h.symm⟩
    · simp [hp] at h

theorem step_allBlocked (s s1 : System T) (e : Event T) (hs : allBlocked s)
    (he : e.isPush = false) (hstep : s.step e = some s1) :
    allBlocked s1 ∧ s1.waiters.length = s.waiters.length := by
  obtain ⟨⟨xs⟩, ws⟩ := s
  obtain ⟨hq, hw⟩ := hs
  simp only at hq hw
  subst hq
  cases e with
  | push v wake => simp [Event.isPush] at he
  | try_pop v =>
    simp only [System.step, ThreadSafeQueue.try_pop_nil, Option.some.injEq] at hstep
    subst hstep
    exact ⟨⟨rfl, hw⟩, rfl⟩
  | run t =>
    simp only [System.step] at hstep
    cases hwt : ws[t]? with
    | none => simp [hwt] at hstep
    | some w =>
      obtain ⟨pc, d⟩ := w
      have hpc := hw _ (List.getElem?_mem hwt)
      simp only at hpc
      rcases hpc with hpc | hpc
      · subst hpc
        simp [hwt, ThreadSafeQueue.wait_and_pop] at hstep
      · subst hpc
        simp only [hwt, ThreadSafeQueue.wait_and_pop, Option.some.injEq] at hstep
        subst hstep
        refine ⟨⟨rfl, ?_⟩, by simp⟩
        intro w hmem
        rcases List.mem_or_eq_of_mem_set hmem with h | h
        · exact hw w h
        · subst h
          exact Or.inl rfl
  | spurious t =>
    simp only [System.step] at hstep
    cases hu : unblock ws t with
    | none => simp [hu] at hstep
    | some ws1 =>
      simp only [hu, Option.some.injEq] at hstep
      subst hstep
      obtain ⟨w, _, _, rfl⟩ := unblock_some ws ws1 t hu
      refine ⟨⟨rfl, ?_⟩, by simp⟩
      intro w1 hmem
      rcases List.mem_or_eq_of_mem_set hmem with h | h
      · exact hw w1 h
      · subst h
        exact Or.inr rfl

theorem run_allBlocked (es : List (Event T)) (s s1 : System T) (hs : allBlocked s)
    (hes : ∀ e ∈ es, e.isPush = false) (hrun : s.run es = some s1) :
    allBlocked s1 ∧ s1.waiters.length = s.waiters.length := by
  induction es generalizing s with
  | nil =>
    simp only [System.run, Option.some.injEq] at hrun
    subst hrun
    exact ⟨hs, rfl⟩
  | cons e es ih =>
    simp only [System.run] at hrun
    cases hstep : s.step e with
    | none => simp [hstep] at hrun
    | some s2 =>
      simp only [hstep] at hrun
      obtain ⟨h2, hl2⟩ := step_allBlocked s s2 e hs (hes e (List.mem_cons_self _ _)) hstep
      obtain ⟨h1, hl1⟩ := ih s2 h2 (fun e1 h => hes e1 (List.mem_cons_of_mem _ h)) hrun
      exact ⟨h1, hl1.trans hl2⟩

/-- C7. A thread `t` parked in `wait_and_pop` on an empty queue: when another thread calls
`push(v)` and the notification goes to `t` (as it must when `t` is the only parked thread),
`t` is unblocked, the queue holds `v`, and the locked section `t` then runs returns with
exactly `v` in its variable, leaving the queue empty. -/
theorem blocked_waiter_receives_push (s : System T) (t : Nat) (w : Waiter T) (v : T)
    (hq : s.queue.data_queue = []) (ht : s.waiters[t]? = some w) (hp : w.pc = Pc.parked) :
    (∃ s1 s2, s.step (Event.push v t) = some s1 ∧
        s1.waiters[t]? = some ⟨Pc.woken, w.value⟩ ∧ s1.queue.data_queue = [v] ∧
        s1.step (Event.run t) = some s2 ∧
        s2.waiters[t]? = some ⟨Pc.returned, v⟩ ∧ s2.queue.data_queue = []) ∧
      ((∀ u w1, s.waiters[u]? = some w1 → w1.pc = Pc.parked → u = t) →
        ∀ wake s1, s.step (Event.push v wake) = some s1 → wake = t) := by
  obtain ⟨⟨xs⟩, ws⟩ := s
  simp only at hq ht
  subst hq
  have hlt : t < ws.length := lt_length_of_getElem? ht
  have hany := anyParked_of_getElem? ws t w ht hp
  have hun := unblock_parked ws t w ht hp
  constructor
  · refine ⟨⟨⟨[v]⟩, ws.set t ⟨Pc.woken, w.value⟩⟩,
      ⟨⟨[]⟩, (ws.set t ⟨Pc.woken, w.value⟩).set t ⟨Pc.returned, v⟩⟩, ?_, ?_, rfl, ?_, ?_, rfl⟩
    · simp [System.step, notify_one, hany, hun, ThreadSafeQueue.push]
    · simp [List.getElem?_set_self hlt]
    · simp [System.step, List.getElem?_set_self hlt, ThreadSafeQueue.wait_and_pop]
    · simp [hlt]
  · intro honly wake s1 hstep
    simp only [System.step, notify_one, hany, if_true] at hstep
    cases hu : unblock ws wake with
    | none => simp [hu] at hstep
    | some ws1 =>
      obtain ⟨w1, hw1, hp1, _⟩ := unblock_some ws ws1 wake hu
      exact honly wake w1 hw1 hp1

/-- The scenario of C7 with one consumer parked on an empty queue and `push(42)`. -/
theorem blocked_waiter_receives_push_witness :
    (∃ s1 s2, (⟨⟨[]⟩, [⟨Pc.parked, 0⟩]⟩ : System Nat).step (Event.push 42 0) = some s1 ∧
        s1.waiters[0]? = some ⟨Pc.woken, 0⟩ ∧ s1.queue.data_queue = [42] ∧
        s1.step (Event.run 0) = some s2 ∧
        s2.waiters[0]? = some ⟨Pc.returned, 42⟩ ∧ s2.queue.data_queue = []) ∧
      ((∀ u w1, (⟨⟨[]⟩, [⟨Pc.parked, 0⟩]⟩ : System Nat).waiters[u]? = some w1 →
          w1.pc = Pc.parked → u = 0) →
        ∀ wake s1, (⟨⟨[]⟩, [⟨Pc.parked, 0⟩]⟩ : System Nat).step (Event.push 42 wake) = some s1 →
          wake = 0) :=
  blocked_waiter_receives_push ⟨⟨[]⟩, [⟨Pc.parked, 0⟩]⟩ 0 ⟨Pc.parked, 0⟩ 42 rfl rfl rfl

/-- C8, as stated, fails: the class has no `close()`. With two threads parked on an empty
queue, no sequence, of any length, of calls other than `push` and of steps of the threads
(`try_pop` calls, spurious wake-ups, locked sections of `wait_and_pop`) ends with even one
of the two threads returned; the threads are released only by values being pushed, and then
each returns holding a pushed value (here 1 and 2), never "no value". -/
theorem no_push_free_run_releases_a_waiter :
    (¬ ∃ (es : List (Event Nat)) (s1 : System Nat),
        (∀ e ∈ es, e.isPush = false) ∧
          (⟨⟨[]⟩, [⟨Pc.parked, 0⟩, ⟨Pc.parked, 0⟩]⟩ : System Nat).run es = some s1 ∧
          ∃ w ∈ s1.waiters, w.pc = Pc.returned) ∧
      (⟨⟨[]⟩, [⟨Pc.parked, 0⟩, ⟨Pc.parked, 0⟩]⟩ : System Nat).run
          [Event.push 1 0, Event.run 0, Event.push 2 1, Event.run 1] =
        some ⟨⟨[]⟩, [⟨Pc.returned, 1⟩, ⟨Pc.returned, 2⟩]⟩ := by
  refine ⟨?_, by decide⟩
  rintro ⟨es, s1, hes, hrun, w, hmem, hret⟩
  have hb : allBlocked (⟨⟨[]⟩, [⟨Pc.parked, 0⟩, ⟨Pc.parked, 0⟩]⟩ : System Nat) := by
    refine ⟨rfl, ?_⟩
    intro w1 h1
    simp only [List.mem_cons, List.mem_singleton, List.not_mem_nil, or_false, or_self] at h1
    subst h1
    exact Or.inl rfl
  obtain ⟨⟨_, hpc⟩, _⟩ := run_allBlocked es _ s1 hb hes hrun
  rcases hpc w hmem with h | h
  · rw [h] at hret
    exact Pc.noConfusion hret
  · rw [h] at hret
    exact Pc.noConfusion hret

/-- C8, amended. With K threads parked in `wait_and_pop` on an empty queue, whatever
`try_pop` calls, spurious wake-ups and re-evaluations of the predicate happen, as long as no
value is pushed the queue stays empty and all K threads stay inside `wait_and_pop`: none of
them returns. -/
theorem blocked_waiters_stay_blocked (s s1 : System T) (es : List (Event T))
    (hq : s.queue.data_queue = []) (hw : ∀ w ∈ s.waiters, w.pc = Pc.parked)
    (hes : ∀ e ∈ es, e.isPush = false) (hrun : s.run es = some s1) :
    s1.queue.data_queue = [] ∧ s1.waiters.length = s.waiters.length ∧
      ∀ w ∈ s1.waiters, w.pc ≠ Pc.returned ∧ (w.pc = Pc.parked ∨ w.pc = Pc.woken) := by
  obtain ⟨⟨h1, h2⟩, h3⟩ :=
    run_allBlocked es s s1 ⟨hq, fun w h => Or.inl (hw w h)⟩ hes hrun
  refine ⟨h1, h3, ?_⟩
  intro w hmem
  have h := h2 w hmem
  refine ⟨?_, h⟩
  rcases h with h | h <;> rw [h] <;> decide

/-- A run of C8, amended: two parked threads, a spurious wake-up of thread 0, its locked
section (it parks again), a `try_pop` by another thread, a spurious wake-up of thread 1. -/
theorem blocked_waiters_stay_blocked_witness :
    (⟨⟨[]⟩, [⟨Pc.parked, 0⟩, ⟨Pc.parked, 0⟩]⟩ : System Nat).run
        [Event.spurious 0, Event.run 0, Event.try_pop 5, Event.spurious 1] =
        some ⟨⟨[]⟩, [⟨Pc.parked, 0⟩, ⟨Pc.woken, 0⟩]⟩ ∧
      ((⟨⟨[]⟩, [⟨Pc.parked, 0⟩, ⟨Pc.woken, 0⟩]⟩ : System Nat).queue.data_queue = [] ∧
        (⟨⟨[]⟩, [⟨Pc.parked, 0⟩, ⟨Pc.woken, 0⟩]⟩ : System Nat).waiters.length =
          (⟨⟨[]⟩, [⟨Pc.parked, 0⟩, ⟨Pc.parked, 0⟩]⟩ : System Nat).waiters.length ∧
        ∀ w ∈ (⟨⟨[]⟩, [⟨Pc.parked, 0⟩, ⟨Pc.woken, 0⟩]⟩ : System Nat).waiters,
          w.pc ≠ Pc.returned ∧ (w.pc = Pc.parked ∨ w.pc = Pc.woken)) :=
  ⟨by decide,
    blocked_waiters_stay_blocked ⟨⟨[]⟩, [⟨Pc.parked, 0⟩, ⟨Pc.parked, 0⟩]⟩
      ⟨⟨[]⟩, [⟨Pc.parked, 0⟩, ⟨Pc.woken, 0⟩]⟩
      [Event.spurious 0, Event.run 0, Event.try_pop 5, Event.spurious 1]
      rfl (by decide) (by decide) (by decide)⟩

/-! ## The producers of the harness -/

theorem producerInv_init (n : Nat) : producerInv n Harness.init := by
  refine ⟨?_, ?_, ?_⟩
  · simp [Harness.init, ThreadSafeQueue.new]
  · intro x
    simp [Harness.init, ThreadSafeQueue.new]
  · intro id
    simp [Harness.init]

theorem producerStep_inv (n id : Nat) (h : Harness) (hn : n ≤ 1000) (hlt : h.next id < n)
    (hinv : producerInv n h) :
    producerInv n (producerStep n id h) ∧
      (producerStep n id h).next = Function.update h.next id (h.next id + 1) ∧
      (producerStep n id h).queue.data_queue.length = h.queue.data_queue.length + 1 := by
  obtain ⟨hnd, hmem, hle⟩ := hinv
  unfold producerInv
  simp only [producerStep, if_pos hlt, ThreadSafeQueue.push_data, List.length_append,
    List.length_singleton, and_true]
  refine ⟨?_, ?_, ?_⟩
  · rw [List.nodup_append]
    refine ⟨hnd, List.nodup_singleton _, ?_⟩
    intro x hx hx1
    rw [List.mem_singleton] at hx1
    subst hx1
    obtain ⟨id1, i, hi, heq⟩ := (hmem _).mp hx
    have h1 := hle id1
    have hid : id1 = id := by omega
    subst hid
    omega
  · intro x
    rw [List.mem_append, List.mem_singleton, hmem]
    constructor
    · rintro (⟨id1, i, hi, rfl⟩ | rfl)
      · refine ⟨id1, i, ?_, rfl⟩
        by_cases hid : id1 = id
        · subst hid
          simp only [Function.update_same]
          omega
        · simpa [Function.update_noteq hid] using hi
      · exact ⟨id, h.next id, by simp, rfl⟩
    · rintro ⟨id1, i, hi, rfl⟩
      by_cases hid : id1 = id
      · subst hid
        simp only [Function.update_same] at hi
        by_cases hi1 : i = h.next id1
        · subst hi1
          exact Or.inr rfl
        · exact Or.inl ⟨id1, i, by omega, rfl⟩
      · rw [Function.update_noteq hid] at hi
        exact Or.inl ⟨id1, i, hi, rfl⟩
  · intro id1
    by_cases hid : id1 = id
    · subst hid
      simp only [Function.update_same]
      omega
    · rw [Function.update_noteq hid]
      exact hle id1

theorem runProducers_inv (n : Nat) (hn : n ≤ 1000) (sched : List Nat) (h : Harness)
    (hcount : ∀ id, h.next id + sched.count id ≤ n) (hinv : producerInv n h) :
    producerInv n (runProducers n sched h) ∧
      (∀ id, (runProducers n sched h).next id = h.next id + sched.count id) ∧
      (runProducers n sched h).queue.data_queue.length =
        h.queue.data_queue.length + sched.length := by
  induction sched generalizing h with
  | nil => simpa [runProducers] using hinv
  | cons id sched ih =>
    have hlt : h.next id < n := by
      have := hcount id
      simp only [List.count_cons_self] at this
      omega
    obtain ⟨hinv1, hnext1, hlen1⟩ := producerStep_inv n id h hn hlt hinv
    have hcount1 : ∀ id1, (producerStep n id h).next id1 + sched.count id1 ≤ n := by
      intro id1
      have := hcount id1
      rw [hnext1]
      by_cases hid : id1 = id
      · subst hid
        simp only [Function.update_same, List.count_cons_self] at this ⊢
        omega
      · rw [Function.update_noteq hid]
        rw [List.count_cons_of_ne hid] at this
        exact this
    obtain ⟨hinv2, hnext2, hlen2⟩ := ih (producerStep n id h) hcount1 hinv1
    refine ⟨hinv2, ?_, ?_⟩
    · intro id1
      simp only [runProducers]
      rw [hnext2, hnext1]
      by_cases hid : id1 = id
      · subst hid
        simp only [Function.update_same, List.count_cons_self]
        omega
      · rw [Function.update_noteq hid, List.count_cons_of_ne hid]
    · simp only [runProducers, List.length_cons]
      rw [hlen2, hlen1]
      omega

theorem length_eq_counts (sched : List Nat) (hs : ∀ id ∈ sched, id < 3) :
    sched.length = sched.count 0 + sched.count 1 + sched.count 2 := by
  induction sched with
  | nil => simp
  | cons id sched ih =>
    have hid : id < 3 := hs id (List.mem_cons_self _ _)
    have ih1 := ih (fun x hx => hs x (List.mem_cons_of_mem _ hx))
    have h3 : id = 0 ∨ id = 1 ∨ id = 2 := by omega
    rcases h3 with rfl | rfl | rfl <;> simp [List.count_cons] <;> omega

theorem isInterleaving_iff (sched : List Nat) :
    isInterleaving sched = true ↔
      (∀ id ∈ sched, id < 3) ∧ sched.count 0 = 5 ∧ sched.count 1 = 5 ∧ sched.count 2 = 5 := by
  simp [isInterleaving, num_producers, items_per_producer, List.range_succ]

/-- C10. With the three producers of `main` (ids 0, 1, 2, five values `id * 1000 + i` each),
for every interleaving of their pushes onto the empty queue followed by `try_pop` calls
until one returns false (within any fuel above `total_items`): exactly 15 values are
popped, no value is popped twice, the popped values are exactly the values `id * 1000 + i`
with `id < 3` and `i < 5`, the queue ends empty, and every value lies in the range of `int`. -/
theorem harness_scenario (sched : List Nat) (d : Int) (fuel : Nat)
    (hs : isInterleaving sched = true) (hfuel : total_items < fuel) :
    ∃ popped v q,
      drain fuel (runProducers items_per_producer sched Harness.init).queue d [] =
          some (popped, v, q) ∧
        popped.length = 15 ∧ popped.Nodup ∧ q.data_queue = [] ∧
        (∀ x : Int, x ∈ popped ↔
          ∃ id i : Nat, id < 3 ∧ i < 5 ∧ x = (id : Int) * 1000 + (i : Int)) ∧
        ∀ x ∈ popped, (0 : Int) ≤ x ∧ x < 2 ^ 31 := by
  obtain ⟨hids, h0, h1, h2⟩ := (isInterleaving_iff sched).mp hs
  have hcnt : ∀ id, sched.count id ≤ 5 := by
    intro id
    by_cases hmem : id ∈ sched
    · have h3 : id = 0 ∨ id = 1 ∨ id = 2 := by
        have := hids id hmem
        omega
      rcases h3 with rfl | rfl | rfl <;> omega
    · rw [List.count_eq_zero_of_not_mem hmem]
      omega
  have hcount : ∀ id, Harness.init.next id + sched.count id ≤ items_per_producer := by
    intro id
    have := hcnt id
    simp only [Harness.init, items_per_producer]
    omega
  obtain ⟨⟨hnd, hmem, _⟩, hnext, hlen⟩ :=
    runProducers_inv items_per_producer (by decide) sched Harness.init hcount
      (producerInv_init _)
  have hlen15 : (runProducers items_per_producer sched Harness.init).queue.data_queue.length
      = 15 := by
    rw [hlen, length_eq_counts sched hids, h0, h1, h2]
    rfl
  generalize (runProducers items_per_producer sched Harness.init) = r at hnd hmem hnext hlen15
  obtain ⟨⟨xs⟩, next⟩ := r
  simp only at hnd hmem hnext hlen15
  have hx : xs.length < fuel := by
    simp only [total_items, num_producers, items_per_producer] at hfuel
    omega
  have hchar : ∀ x : Int, x ∈ xs ↔
      ∃ id i : Nat, id < 3 ∧ i < 5 ∧ x = (id : Int) * 1000 + (i : Int) := by
    intro x
    rw [hmem]
    constructor
    · rintro ⟨id, i, hi, rfl⟩
      rw [hnext] at hi
      simp only [Harness.init, Nat.zero_add] at hi
      have hmemid : id ∈ sched := by
        by_contra hne
        rw [List.count_eq_zero_of_not_mem hne] at hi
        omega
      exact ⟨id, i, hids id hmemid, lt_of_lt_of_le hi (hcnt id), rfl⟩
    · rintro ⟨id, i, hid, hi, rfl⟩
      refine ⟨id, i, ?_, rfl⟩
      rw [hnext]
      simp only [Harness.init, Nat.zero_add]
      have h3 : id = 0 ∨ id = 1 ∨ id = 2 := by omega
      rcases h3 with rfl | rfl | rfl <;> omega
  refine ⟨xs, xs.foldl (fun _ v => v) d, ⟨[]⟩, ?_, hlen15, hnd, rfl, hchar, ?_⟩
  · simpa using drain_data xs fuel d [] hx
  · intro x hxmem
    obtain ⟨id, i, hid, hi, rfl⟩ := (hchar x).mp hxmem
    constructor <;> omega

/-- The round-robin interleaving 0, 1, 2, 0, 1, 2, ... of the three producers. -/
theorem harness_scenario_witness :
    ∃ popped v q,
      drain 16 (runProducers items_per_producer [0, 1, 2, 0, 1, 2, 0, 1, 2, 0, 1, 2, 0, 1, 2]
          Harness.init).queue 0 [] = some (popped, v, q) ∧
        popped.length = 15 ∧ popped.Nodup ∧ q.data_queue = [] ∧
        (∀ x : Int, x ∈ popped ↔
          ∃ id i : Nat, id < 3 ∧ i < 5 ∧ x = (id : Int) * 1000 + (i : Int)) ∧
        ∀ x ∈ popped, (0 : Int) ≤ x ∧ x < 2 ^ 31 :=
  harness_scenario [0, 1, 2, 0, 1, 2, 0, 1, 2, 0, 1, 2, 0, 1, 2] 0 16 (by decide) (by decide)

/-! ## BigNum: digit vectors and their values -/

namespace BigNum

@[simp] theorem digitsValue_nil : digitsValue [] = 0 := rfl

@[simp] theorem digitsValue_cons (d : Int) (ds : List Int) :
    digitsValue (d :: ds) = d + 10 * digitsValue ds := rfl

theorem digitsValue_append (l r : List Int) :
    digitsValue (l ++ r) = digitsValue l + 10 ^ l.length * digitsValue r := by
  induction l with
  | nil => simp
  | cons d l ih =>
    simp only [List.cons_append, digitsValue_cons, ih, List.length_cons, pow_succ]
    ring

theorem digitsValue_drop (l : List Int) (i : Nat) :
    digitsValue (l.drop i) =
      (if i < l.length then l.getD i 0 else 0) + 10 * digitsValue (l.drop (i + 1)) := by
  by_cases h : i < l.length
  · have hg : l.getD i 0 = l[i] := by
      simp [List.getD_eq_getElem?_getD, List.getElem?_eq_getElem h]
    rw [if_pos h, hg]
    conv_lhs => rw [List.drop_eq_getElem_cons h]
    rfl
  · have h1 : l.drop i = [] := List.drop_eq_nil_of_le (by omega)
    have h2 : l.drop (i + 1) = [] := List.drop_eq_nil_of_le (by omega)
    simp [h, h1, h2]

theorem digitsValue_bounds (l : List Int) (h : DigitsInRange l) :
    0 ≤ digitsValue l ∧ digitsValue l < 10 ^ l.length := by
  induction l with
  | nil => simp
  | cons d l ih =>
    have hd := h d (List.mem_cons_self _ _)
    have hl := ih (fun x hx => h x (List.mem_cons_of_mem _ hx))
    simp only [digitsValue_cons, List.length_cons, pow_succ]
    constructor <;> omega

theorem DigitsInRange.append {l r : List Int} (hl : DigitsInRange l) (hr : DigitsInRange r) :
    DigitsInRange (l ++ r) := by
  intro d hd
  rcases List.mem_append.mp hd with h | h
  · exact hl d h
  · exact hr d h

theorem DigitsInRange.singleton {d : Int} (h0 : 0 ≤ d) (h9 : d ≤ 9) : DigitsInRange [d] := by
  intro x hx
  rw [List.mem_singleton] at hx
  subst hx
  exact ⟨h0, h9⟩

theorem DigitsInRange.drop {l : List Int} (h : DigitsInRange l) (i : Nat) :
    DigitsInRange (l.drop i) :=
  fun d hd => h d (List.mem_of_mem_drop hd)

theorem DigitsInRange.getD {l : List Int} (h : DigitsInRange l) (i : Nat) :
    0 ≤ l.getD i 0 ∧ l.getD i 0 ≤ 9 := by
  by_cases hi : i < l.length
  · have : l.getD i 0 = l[i] := by
      simp [List.getD_eq_getElem?_getD, List.getElem?_eq_getElem hi]
    rw [this]
    exact h _ (List.getElem_mem hi)
  · have : l.getD i 0 = 0 := by
      simp [List.getD_eq_getElem?_getD, List.getElem?_eq_none (by omega : l.length ≤ i)]
    rw [this]
    omega

/-- What the loop of `removeLeadingZeros` achieves. -/
theorem removeLeadingZerosLoop_spec (ds : List Int) :
    digitsValue (removeLeadingZerosLoop ds) = digitsValue ds ∧
      (∀ d ∈ removeLeadingZerosLoop ds, d ∈ ds) ∧
      (ds ≠ [] → removeLeadingZerosLoop ds ≠ []) ∧
      ¬ (1 < (removeLeadingZerosLoop ds).length ∧
        (removeLeadingZerosLoop ds).getLast? = some 0) := by
  induction ds using removeLeadingZerosLoop.induct with
  | case1 ds hc ih =>
    rw [removeLeadingZerosLoop, if_pos hc]
    obtain ⟨h1, h2, h3, h4⟩ := ih
    obtain ⟨hlen, hlast⟩ := hc
    have hne : ds ≠ [] := by
      intro h
      simp [h] at hlen
    have hsplit : ds = ds.dropLast ++ [0] := by
      have := List.dropLast_append_getLast hne
      have hl : ds.getLast hne = 0 := by
        rw [List.getLast?_eq_getLast _ hne] at hlast
        exact Option.some.inj hlast
      rw [hl] at this
      exact this.symm
    refine ⟨?_, ?_, ?_, h4⟩
    · rw [h1]
      conv_rhs => rw [hsplit]
      rw [digitsValue_append]
      simp
    · intro d hd
      exact List.mem_of_mem_dropLast (h2 d hd)
    · intro _
      apply h3
      intro h
      have : ds.dropLast.length = 0 := by rw [h]; rfl
      simp only [List.length_dropLast] at this
      omega
  | case2 ds hc =>
    rw [removeLeadingZerosLoop, if_neg hc]
    exact ⟨rfl, fun d hd => hd, fun h => h, hc⟩

theorem toInt_removeLeadingZeros (x : BigNum) :
    toInt (removeLeadingZeros x) = toInt x := by
  obtain ⟨hv, _, _, _⟩ := removeLeadingZerosLoop_spec x.digits
  unfold removeLeadingZeros
  simp only
  split
  · rename_i h
    obtain ⟨hl, h0⟩ := h
    have hz : removeLeadingZerosLoop x.digits = [0] := by
      cases hds : removeLeadingZerosLoop x.digits with
      | nil => simp [hds] at hl
      | cons d ds =>
        cases ds with
        | nil =>
          rw [hds] at h0
          simp at h0
          rw [h0]
        | cons e es => simp [hds] at hl
    have hv0 : digitsValue x.digits = 0 := by
      rw [← hv, hz]
      simp
    simp [toInt, hz, hv0]
  · simp [toInt, hv]

theorem removeLeadingZeros_digits (x : BigNum) :
    (removeLeadingZeros x).digits = removeLeadingZerosLoop x.digits := by
  unfold removeLeadingZeros
  simp only
  split <;> rfl

theorem normalForm_removeLeadingZeros (x : BigNum) (hne : x.digits ≠ [])
    (hr : DigitsInRange x.digits) : NormalForm (removeLeadingZeros x) := by
  obtain ⟨_, hmem, hnonempty, hexit⟩ := removeLeadingZerosLoop_spec x.digits
  refine ⟨?_, ?_, ?_, ?_⟩
  · rw [removeLeadingZeros_digits]
    exact hnonempty hne
  · rw [removeLeadingZeros_digits]
    exact fun d hd => hr d (hmem d hd)
  · rw [removeLeadingZeros_digits]
    intro h1 h2
    exact hexit ⟨h1, h2⟩
  · intro h
    rw [removeLeadingZeros_digits] at h
    unfold removeLeadingZeros
    simp [h]

/-- On a value in normal form `removeLeadingZeros` changes nothing. -/
theorem removeLeadingZeros_of_normalForm (x : BigNum) (h : NormalForm x) :
    removeLeadingZeros x = x := by
  obtain ⟨hne, _, hlead, hzero⟩ := h
  have hloop : removeLeadingZerosLoop x.digits = x.digits := by
    rw [removeLeadingZerosLoop]
    split
    · rename_i hc
      exact absurd hc.2 (hlead hc.1)
    · rfl
  obtain ⟨ds, neg⟩ := x
  simp only at hne hlead hzero hloop
  unfold removeLeadingZeros
  simp only [hloop]
  split
  · rename_i hc
    obtain ⟨hl, h0⟩ := hc
    have hz : ds = [0] := by
      cases ds with
      | nil => simp at hl
      | cons d ds =>
        cases ds with
        | nil =>
          simp at h0
          rw [h0]
        | cons e es => simp at hl
    rw [hzero hz]
  · rfl


theorem tmod_tdiv_of_nonneg (s : Int) (hs : 0 ≤ s) :
    0 ≤ s.tmod 10 ∧ s.tmod 10 ≤ 9 ∧ 0 ≤ s.tdiv 10 ∧ s.tmod 10 + 10 * s.tdiv 10 = s ∧
      s.tdiv 10 = s / 10 ∧ s.tmod 10 = s % 10 := by
  have h1 : s.tdiv 10 = s / 10 := Int.tdiv_eq_ediv hs (by omega)
  have h2 : s.tmod 10 = s % 10 := Int.tmod_eq_emod hs (by omega)
  rw [h1, h2]
  refine ⟨?_, ?_, ?_, ?_, rfl, rfl⟩ <;> omega

theorem addLoop_value (a b : List Int) (i : Nat) (carry : Int) (result : List Int) :
    digitsValue (addLoop a b i carry result) =
      digitsValue result +
        10 ^ result.length * (carry + digitsValue (a.drop i) + digitsValue (b.drop i)) := by
  induction i, carry, result using addLoop.induct a b with
  | case1 i carry result hc sum ih =>
    rw [addLoop, if_pos hc]
    refine ih.trans ?_
    have hsum : sum = carry + (if i < a.length then a.getD i 0 else 0) +
        (if i < b.length then b.getD i 0 else 0) := rfl
    have h := Int.tmod_add_tdiv sum 10
    rw [digitsValue_append, List.length_append, digitsValue_drop a i, digitsValue_drop b i]
    simp only [List.length_singleton, digitsValue_cons, digitsValue_nil, pow_succ]
    linear_combination (10 ^ result.length) * h + (10 ^ result.length) * hsum
  | case2 i carry result hc =>
    rw [addLoop, if_neg hc]
    have hi : ¬ i < max a.length b.length := fun h => hc (Or.inl h)
    have hcarry : carry = 0 := by
      by_contra h
      exact hc (Or.inr h)
    have ha : a.drop i = [] := List.drop_eq_nil_of_le (by omega)
    have hb : b.drop i = [] := List.drop_eq_nil_of_le (by omega)
    simp [ha, hb, hcarry]

theorem addLoop_range (a b : List Int) (ha : DigitsInRange a) (hb : DigitsInRange b)
    (i : Nat) (carry : Int) (result : List Int) (hcarry : 0 ≤ carry)
    (hr : DigitsInRange result) : DigitsInRange (addLoop a b i carry result) := by
  induction i, carry, result using addLoop.induct a b with
  | case1 i carry result hc sum ih =>
    rw [addLoop, if_pos hc]
    have hai := ha.getD i
    have hbi := hb.getD i
    have hsum : 0 ≤ sum := by
      show 0 ≤ carry + (if i < a.length then a.getD i 0 else 0) +
        (if i < b.length then b.getD i 0 else 0)
      split <;> split <;> omega
    obtain ⟨h1, h2, h3, _⟩ := tmod_tdiv_of_nonneg sum hsum
    exact ih h3 (hr.append (DigitsInRange.singleton h1 h2))
  | case2 i carry result hc =>
    rw [addLoop, if_neg hc]
    exact hr

theorem addLoop_length (a b : List Int) (i : Nat) (carry : Int) (result : List Int) :
    result.length + (max a.length b.length - i) ≤ (addLoop a b i carry result).length := by
  induction i, carry, result using addLoop.induct a b with
  | case1 i carry result hc sum ih =>
    rw [addLoop, if_pos hc]
    refine le_trans ?_ ih
    simp only [List.length_append, List.length_singleton]
    omega
  | case2 i carry result hc =>
    rw [addLoop, if_neg hc]
    have hi : ¬ i < max a.length b.length := fun h => hc (Or.inl h)
    omega

theorem toInt_addSameSign (x y : BigNum) (hs : x.isNegative = y.isNegative) :
    toInt (addSameSign x y) = toInt x + toInt y := by
  unfold addSameSign
  rw [toInt_removeLeadingZeros]
  have h := addLoop_value x.digits y.digits 0 0 []
  simp only [List.drop_zero, digitsValue_nil, List.length_nil, pow_zero, zero_add, one_mul] at h
  simp only [toInt, h, ← hs]
  split <;> ring

theorem normalForm_addSameSign (x y : BigNum) (hx : NormalForm x) (hy : NormalForm y) :
    NormalForm (addSameSign x y) := by
  unfold addSameSign
  apply normalForm_removeLeadingZeros
  · simp only
    intro h
    have hl := addLoop_length x.digits y.digits 0 0 []
    have hne : 0 < x.digits.length := List.length_pos.mpr hx.1
    rw [h] at hl
    simp only [List.length_nil] at hl
    omega
  · exact addLoop_range x.digits y.digits hx.2.1 hy.2.1 0 0 [] (le_refl 0)
      (fun d hd => absurd hd (List.not_mem_nil d))


theorem absoluteSubtractLoop_value (a b : List Int) (n i : Nat) (borrow : Int)
    (result : List Int) (hn : i + n = a.length) (hb : b.length ≤ a.length)
    (hborrow : borrow = 0 ∨ borrow = 1) :
    ∃ bf : Int, (bf = 0 ∨ bf = 1) ∧
      digitsValue (absoluteSubtractLoop a b n i borrow result) =
        digitsValue result +
          10 ^ result.length * (digitsValue (a.drop i) - digitsValue (b.drop i) - borrow) +
          10 ^ (result.length + n) * bf := by
  induction n generalizing i borrow result with
  | zero =>
    refine ⟨borrow, hborrow, ?_⟩
    have ha : a.drop i = [] := List.drop_eq_nil_of_le (by omega)
    have hb1 : b.drop i = [] := List.drop_eq_nil_of_le (by omega)
    simp only [absoluteSubtractLoop, ha, hb1, digitsValue_nil, Nat.add_zero]
    ring
  | succ n ih =>
    have hi : i < a.length := by omega
    have hda := digitsValue_drop a i
    have hdb := digitsValue_drop b i
    rw [if_pos hi] at hda
    simp only [absoluteSubtractLoop]
    obtain ⟨bi, hbi⟩ : ∃ bi, bi = (if i < b.length then b.getD i 0 else 0) := ⟨_, rfl⟩
    obtain ⟨diff, hdiff⟩ : ∃ diff, diff = a.getD i 0 - borrow - bi := ⟨_, rfl⟩
    rw [← hbi] at hdb ⊢
    rw [← hdiff]
    by_cases hd : diff < 0
    · rw [if_pos hd]
      obtain ⟨bf, hbf, hv⟩ := ih (i + 1) 1 (result ++ [diff + 10]) (by omega) (Or.inr rfl)
      refine ⟨bf, hbf, ?_⟩
      rw [hv, digitsValue_append, hda, hdb]
      simp only [List.length_append, List.length_singleton, digitsValue_cons, digitsValue_nil,
        pow_succ, pow_add]
      rw [hdiff]
      ring
    · rw [if_neg hd]
      obtain ⟨bf, hbf, hv⟩ := ih (i + 1) 0 (result ++ [diff]) (by omega) (Or.inl rfl)
      refine ⟨bf, hbf, ?_⟩
      rw [hv, digitsValue_append, hda, hdb]
      simp only [List.length_append, List.length_singleton, digitsValue_cons, digitsValue_nil,
        pow_succ, pow_add]
      rw [hdiff]
      ring

theorem absoluteSubtractLoop_range (a b : List Int) (ha : DigitsInRange a)
    (hb : DigitsInRange b) (n i : Nat) (borrow : Int) (result : List Int)
    (hborrow : borrow = 0 ∨ borrow = 1) (hr : DigitsInRange result) :
    DigitsInRange (absoluteSubtractLoop a b n i borrow result) := by
  induction n generalizing i borrow result with
  | zero => exact hr
  | succ n ih =>
    have hai := ha.getD i
    have hbi0 := hb.getD i
    have hbi2 : 0 ≤ (if i < b.length then b.getD i 0 else 0) ∧
        (if i < b.length then b.getD i 0 else 0) ≤ 9 := by
      split <;> omega
    simp only [absoluteSubtractLoop]
    obtain ⟨bi, hbi⟩ : ∃ bi, bi = (if i < b.length then b.getD i 0 else 0) := ⟨_, rfl⟩
    rw [← hbi] at hbi2 ⊢
    by_cases hd : a.getD i 0 - borrow - bi < 0
    · rw [if_pos hd]
      exact ih _ _ _ (Or.inr rfl) (hr.append (DigitsInRange.singleton
        (by rcases hborrow with h | h <;> omega) (by omega)))
    · rw [if_neg hd]
      exact ih _ _ _ (Or.inl rfl) (hr.append (DigitsInRange.singleton
        (by omega) (by rcases hborrow with h | h <;> omega)))

theorem absoluteSubtractLoop_length (a b : List Int) (n i : Nat) (borrow : Int)
    (result : List Int) :
    (absoluteSubtractLoop a b n i borrow result).length = result.length + n := by
  induction n generalizing i borrow result with
  | zero => rfl
  | succ n ih =>
    simp only [absoluteSubtractLoop]
    split_ifs <;> rw [ih] <;> simp only [List.length_append, List.length_singleton] <;> omega

/-- The digits `absoluteSubtract` leaves when the first operand is at least the second. -/
theorem absoluteSubtract_spec (x y : BigNum) (hx : DigitsInRange x.digits)
    (hy : DigitsInRange y.digits) (hne : x.digits ≠ []) (hlen : y.digits.length ≤ x.digits.length)
    (hle : digitsValue y.digits ≤ digitsValue x.digits) :
    digitsValue (absoluteSubtract x y).digits = digitsValue x.digits - digitsValue y.digits ∧
      NormalForm (absoluteSubtract x y) := by
  have hrange := absoluteSubtractLoop_range x.digits y.digits hx hy x.digits.length 0 0 []
    (Or.inl rfl) (fun d hd => absurd hd (List.not_mem_nil d))
  have hlength := absoluteSubtractLoop_length x.digits y.digits x.digits.length 0 0 []
  obtain ⟨bf, hbf, hv⟩ := absoluteSubtractLoop_value x.digits y.digits x.digits.length 0 0 []
    (by omega) hlen (Or.inl rfl)
  simp only [List.drop_zero, digitsValue_nil, List.length_nil, pow_zero, zero_add, one_mul,
    sub_zero] at hv hlength
  have hbound := digitsValue_bounds _ hrange
  rw [hlength] at hbound
  have hxb := digitsValue_bounds _ hx
  have hyb := digitsValue_bounds _ hy
  have hbf0 : bf = 0 := by
    rcases hbf with h | h
    · exact h
    · rw [h] at hv
      omega
  rw [hbf0] at hv
  constructor
  · unfold absoluteSubtract
    rw [removeLeadingZeros_digits]
    rw [(removeLeadingZerosLoop_spec _).1, hv]
    ring
  · unfold absoluteSubtract
    apply normalForm_removeLeadingZeros
    · simp only
      intro h
      rw [h] at hlength
      have := List.length_pos.mpr hne
      simp only [List.length_nil] at hlength
      omega
    · exact hrange

theorem digitsValue_take_succ (l : List Int) (k : Nat) :
    digitsValue (l.take (k + 1)) = digitsValue (l.take k) + 10 ^ k * l.getD k 0 := by
  induction l generalizing k with
  | nil => simp
  | cons d l ih =>
    cases k with
    | zero => simp
    | succ k =>
      simp only [List.take_succ_cons, digitsValue_cons, ih k, List.getD_cons_succ, pow_succ]
      ring

theorem digitsValue_take_bounds (l : List Int) (h : DigitsInRange l) (k : Nat) :
    0 ≤ digitsValue (l.take k) ∧ digitsValue (l.take k) < 10 ^ k := by
  have hr : DigitsInRange (l.take k) := fun d hd => h d (List.mem_of_mem_take hd)
  obtain ⟨h1, h2⟩ := digitsValue_bounds _ hr
  refine ⟨h1, lt_of_lt_of_le h2 ?_⟩
  apply pow_le_pow_right₀ (by norm_num)
  simp only [List.length_take]
  omega

theorem compareLoop_spec (a b : List Int) (ha : DigitsInRange a) (hb : DigitsInRange b)
    (k : Nat) :
    (compareLoop a b k < 0 → digitsValue (a.take k) < digitsValue (b.take k)) ∧
      (¬ compareLoop a b k < 0 → digitsValue (b.take k) ≤ digitsValue (a.take k)) := by
  induction k with
  | zero => simp [compareLoop]
  | succ k ih =>
    have hta := digitsValue_take_bounds a ha k
    have htb := digitsValue_take_bounds b hb k
    have hp : (0 : Int) < 10 ^ k := by positivity
    rw [digitsValue_take_succ, digitsValue_take_succ]
    simp only [compareLoop]
    split
    · rename_i hne
      split
      · rename_i hgt
        have h1 : 10 ^ k * (b.getD k 0 + 1) ≤ 10 ^ k * a.getD k 0 :=
          mul_le_mul_of_nonneg_left (by omega) (le_of_lt hp)
        constructor
        · intro h
          omega
        · intro _
          nlinarith
      · rename_i hngt
        have hlt : a.getD k 0 < b.getD k 0 := by omega
        have h1 : 10 ^ k * (a.getD k 0 + 1) ≤ 10 ^ k * b.getD k 0 :=
          mul_le_mul_of_nonneg_left (by omega) (le_of_lt hp)
        constructor
        · intro _
          nlinarith
        · intro h
          omega
    · rename_i heq
      have heq1 : a.getD k 0 = b.getD k 0 := by
        by_contra h
        exact heq h
      rw [heq1]
      constructor
      · intro h
        have := ih.1 h
        omega
      · intro h
        have := ih.2 h
        omega

theorem digitsValue_lower (l : List Int) (h : DigitsInRange l) (hlen : 1 < l.length)
    (hlast : l.getLast? ≠ some 0) : 10 ^ (l.length - 1) ≤ digitsValue l := by
  have hne : l ≠ [] := by
    intro h0
    simp [h0] at hlen
  have hsplit := List.dropLast_append_getLast hne
  have hmem : l.getLast hne ∈ l := List.getLast_mem hne
  have hd := h _ hmem
  have hnz : l.getLast hne ≠ 0 := by
    intro h0
    apply hlast
    rw [List.getLast?_eq_getLast _ hne, h0]
  have hge : 1 ≤ l.getLast hne := by omega
  have hr : DigitsInRange l.dropLast := fun d hd => h d (List.mem_of_mem_dropLast hd)
  have hb := digitsValue_bounds _ hr
  have hv : digitsValue l = digitsValue l.dropLast + 10 ^ l.dropLast.length * l.getLast hne := by
    conv_lhs => rw [← hsplit]
    rw [digitsValue_append]
    simp
  rw [hv, List.length_dropLast]
  have hp : (0 : Int) < 10 ^ (l.length - 1) := by positivity
  nlinarith

theorem compareAbsoluteValue_spec (x y : BigNum) (hx : NormalForm x) (hy : NormalForm y) :
    (compareAbsoluteValue x y < 0 →
        digitsValue x.digits < digitsValue y.digits ∧ x.digits.length ≤ y.digits.length) ∧
      (¬ compareAbsoluteValue x y < 0 →
        digitsValue y.digits ≤ digitsValue x.digits ∧ y.digits.length ≤ x.digits.length) := by
  obtain ⟨hxne, hxr, hxl, _⟩ := hx
  obtain ⟨hyne, hyr, hyl, _⟩ := hy
  have hxpos := List.length_pos.mpr hxne
  have hypos := List.length_pos.mpr hyne
  have hxb := digitsValue_bounds _ hxr
  have hyb := digitsValue_bounds _ hyr
  unfold compareAbsoluteValue
  split
  · rename_i hne
    split
    · rename_i hgt
      have hlow := digitsValue_lower x.digits hxr (by omega) (hxl (by omega))
      have hpow : (10 : Int) ^ y.digits.length ≤ 10 ^ (x.digits.length - 1) :=
        pow_le_pow_right₀ (by norm_num) (by omega)
      constructor
      · intro h
        omega
      · intro _
        constructor <;> omega
    · rename_i hngt
      have hlt : x.digits.length < y.digits.length := by omega
      have hlow := digitsValue_lower y.digits hyr (by omega) (hyl (by omega))
      have hpow : (10 : Int) ^ x.digits.length ≤ 10 ^ (y.digits.length - 1) :=
        pow_le_pow_right₀ (by norm_num) (by omega)
      constructor
      · intro _
        constructor <;> omega
      · intro h
        omega
  · rename_i heq
    have heq1 : x.digits.length = y.digits.length := by
      by_contra h
      exact heq h
    have hs := compareLoop_spec x.digits y.digits hxr hyr x.digits.length
    rw [List.take_length] at hs
    have hty : y.digits.take x.digits.length = y.digits := by
      rw [heq1, List.take_length]
    rw [hty] at hs
    constructor
    · intro h
      exact ⟨hs.1 h, by omega⟩
    · intro h
      exact ⟨hs.2 h, by omega⟩

theorem subSameSign_spec (x y : BigNum) (hx : NormalForm x) (hy : NormalForm y)
    (hs : x.isNegative = y.isNegative) :
    toInt (subSameSign x y) = toInt x - toInt y ∧ NormalForm (subSameSign x y) := by
  obtain ⟨hlt, hge⟩ := compareAbsoluteValue_spec x y hx hy
  unfold subSameSign
  split
  · rename_i hc
    obtain ⟨hv, hl⟩ := hlt hc
    obtain ⟨hval, hnf⟩ := absoluteSubtract_spec y x hy.2.1 hx.2.1 hy.1 hl (le_of_lt hv)
    constructor
    · rw [toInt_removeLeadingZeros]
      simp only [toInt, hval, ← hs]
      cases x.isNegative
      · simp
      · simp
        ring
    · exact normalForm_removeLeadingZeros _ hnf.1 hnf.2.1
  · rename_i hc
    obtain ⟨hv, hl⟩ := hge hc
    obtain ⟨hval, hnf⟩ := absoluteSubtract_spec x y hx.2.1 hy.2.1 hx.1 hl hv
    constructor
    · rw [toInt_removeLeadingZeros]
      simp only [toInt, hval, ← hs]
      cases x.isNegative
      · simp
      · simp
        ring
    · exact normalForm_removeLeadingZeros _ hnf.1 hnf.2.1


theorem normalForm_abs (x : BigNum) (hx : NormalForm x) : NormalForm ⟨x.digits, false⟩ :=
  ⟨hx.1, hx.2.1, hx.2.2.1, fun _ => rfl⟩

theorem digitsValue_pos (x : BigNum) (hx : NormalForm x) (hnz : x.digits ≠ [0]) :
    0 < digitsValue x.digits := by
  obtain ⟨hne, hr, hlead, _⟩ := hx
  obtain ⟨ds, neg⟩ := x
  simp only at hne hr hlead hnz
  show 0 < digitsValue ds
  cases ds with
  | nil => exact absurd rfl hne
  | cons d ds =>
    cases ds with
    | nil =>
      have hd := hr d (List.mem_cons_self _ _)
      have hd0 : d ≠ 0 := by
        intro h
        subst h
        exact hnz rfl
      simp only [digitsValue_cons, digitsValue_nil]
      omega
    | cons e es =>
      have hlow := digitsValue_lower (d :: e :: es) hr (by simp) (hlead (by simp))
      have hp : (0 : Int) < 10 ^ ((d :: e :: es).length - 1) := by positivity
      omega

theorem digitsValue_pos_of_negative (x : BigNum) (hx : NormalForm x)
    (hneg : x.isNegative = true) : 0 < digitsValue x.digits := by
  apply digitsValue_pos x hx
  intro h
  have := hx.2.2.2 h
  rw [hneg] at this
  exact Bool.noConfusion this

theorem add_of_same_sign (x y : BigNum) (hs : x.isNegative = y.isNegative) :
    add x y = addSameSign x y := by
  rw [add]
  simp [hs]

theorem sub_of_same_sign (x y : BigNum) (hs : x.isNegative = y.isNegative) :
    sub x y = subSameSign x y := by
  rw [sub]
  simp [hs]

theorem add_negative_left (x y : BigNum) (hx : x.isNegative = true)
    (hy : y.isNegative = false) : add x y = subSameSign y ⟨x.digits, false⟩ := by
  rw [add]
  simp only [hx, hy, ne_eq, Bool.true_eq_false, not_false_eq_true, if_true]
  rw [sub_of_same_sign]
  simp [hy]

theorem add_negative_right (x y : BigNum) (hx : x.isNegative = false)
    (hy : y.isNegative = true) : add x y = subSameSign x ⟨y.digits, false⟩ := by
  rw [add]
  simp only [hx, hy, ne_eq, Bool.false_eq_true, not_false_eq_true, if_true, if_false]
  rw [sub_of_same_sign]
  simp [hx]

theorem sub_negative_left (x y : BigNum) (hx : x.isNegative = true)
    (hy : y.isNegative = false) :
    sub x y = ⟨(addSameSign ⟨x.digits, false⟩ y).digits, true⟩ := by
  rw [sub]
  simp only [hx, hy, ne_eq, Bool.true_eq_false, not_false_eq_true, if_true]
  rw [add_of_same_sign]
  simp [hy]

theorem sub_negative_right (x y : BigNum) (hx : x.isNegative = false)
    (hy : y.isNegative = true) : sub x y = addSameSign x ⟨y.digits, false⟩ := by
  rw [sub]
  simp only [hx, hy, ne_eq, Bool.false_eq_true, not_false_eq_true, if_true, if_false]
  rw [add_of_same_sign]
  simp [hx]

/-- Addition is exact and keeps the normal form. -/
theorem add_spec (x y : BigNum) (hx : NormalForm x) (hy : NormalForm y) :
    toInt (add x y) = toInt x + toInt y ∧ NormalForm (add x y) := by
  cases hxs : x.isNegative <;> cases hys : y.isNegative
  · rw [add_of_same_sign x y (by rw [hxs, hys])]
    exact ⟨toInt_addSameSign x y (by rw [hxs, hys]), normalForm_addSameSign x y hx hy⟩
  · rw [add_negative_right x y hxs hys]
    obtain ⟨h1, h2⟩ := subSameSign_spec x ⟨y.digits, false⟩ hx (normalForm_abs y hy)
      (by simp [hxs])
    refine ⟨?_, h2⟩
    rw [h1]
    simp [toInt, hxs, hys]
    ring
  · rw [add_negative_left x y hxs hys]
    obtain ⟨h1, h2⟩ := subSameSign_spec y ⟨x.digits, false⟩ hy (normalForm_abs x hx)
      (by simp [hys])
    refine ⟨?_, h2⟩
    rw [h1]
    simp [toInt, hxs, hys]
    ring
  · rw [add_of_same_sign x y (by rw [hxs, hys])]
    exact ⟨toInt_addSameSign x y (by rw [hxs, hys]), normalForm_addSameSign x y hx hy⟩

/-- Subtraction is exact and keeps the normal form. -/
theorem sub_spec (x y : BigNum) (hx : NormalForm x) (hy : NormalForm y) :
    toInt (sub x y) = toInt x - toInt y ∧ NormalForm (sub x y) := by
  cases hxs : x.isNegative <;> cases hys : y.isNegative
  · rw [sub_of_same_sign x y (by rw [hxs, hys])]
    exact subSameSign_spec x y hx hy (by rw [hxs, hys])
  · rw [sub_negative_right x y hxs hys]
    refine ⟨?_, normalForm_addSameSign x _ hx (normalForm_abs y hy)⟩
    rw [toInt_addSameSign x ⟨y.digits, false⟩ (by simp [hxs])]
    simp [toInt, hxs, hys]
  · rw [sub_negative_left x y hxs hys]
    have hnf := normalForm_addSameSign ⟨x.digits, false⟩ y (normalForm_abs x hx) hy
    have hv := toInt_addSameSign ⟨x.digits, false⟩ y (by simp [hys])
    have hpos := digitsValue_pos_of_negative x hx hxs
    have hyb := digitsValue_bounds _ hy.2.1
    have hrb := digitsValue_bounds _ hnf.2.1
    simp only [toInt, hys, Bool.false_eq_true, if_false] at hv
    have hdig : digitsValue (addSameSign ⟨x.digits, false⟩ y).digits =
        digitsValue x.digits + digitsValue y.digits := by
      split at hv
      · omega
      · exact hv
    constructor
    · simp only [toInt, hxs, hys, if_true, Bool.false_eq_true, if_false]
      rw [hdig]
      ring
    · refine ⟨hnf.1, hnf.2.1, hnf.2.2.1, ?_⟩
      intro h0
      simp only at h0
      rw [h0] at hdig
      simp only [digitsValue_cons, digitsValue_nil] at hdig
      omega
  · rw [sub_of_same_sign x y (by rw [hxs, hys])]
    exact subSameSign_spec x y hx hy (by rw [hxs, hys])


theorem digitsValue_set (l : List Int) (k : Nat) (x : Int) (hk : k < l.length) :
    digitsValue (l.set k x) = digitsValue l + 10 ^ k * (x - l.getD k 0) := by
  induction l generalizing k with
  | nil => simp at hk
  | cons d l ih =>
    cases k with
    | zero =>
      simp
      ring
    | succ k =>
      have hk1 : k < l.length := by simpa using hk
      simp only [List.set_cons_succ, digitsValue_cons, ih k hk1, List.getD_cons_succ, pow_succ]
      ring

theorem DigitsInRange.set {l : List Int} (h : DigitsInRange l) (k : Nat) {x : Int}
    (h0 : 0 ≤ x) (h9 : x ≤ 9) : DigitsInRange (l.set k x) := by
  intro d hd
  rcases List.mem_or_eq_of_mem_set hd with h1 | h1
  · exact h d h1
  · subst h1
    exact ⟨h0, h9⟩

theorem digitsValue_replicate_zero (k : Nat) : digitsValue (List.replicate k 0) = 0 := by
  induction k with
  | zero => rfl
  | succ k ih => simp [List.replicate_succ, ih]

theorem digitsInRange_replicate_zero (k : Nat) : DigitsInRange (List.replicate k 0) := by
  intro d hd
  have := List.eq_of_mem_replicate hd
  subst this
  omega

/-- The inner loop of the multiplication adds `ai * b` at position `i`, never indexes
outside the vector, and leaves every digit in 0..9. -/
theorem mulInner_spec (ai : Int) (b : List Int) (hai : 0 ≤ ai ∧ ai ≤ 9) (hb : DigitsInRange b)
    (i j : Nat) (carry : Int) (result : List Int) (hcarry : 0 ≤ carry)
    (hr : DigitsInRange result) (hlen : i + b.length ≤ result.length)
    (hfit : digitsValue result + 10 ^ (i + j) * (carry + ai * digitsValue (b.drop j)) <
      10 ^ result.length) :
    ∃ r, mulInner ai b i j carry result = some r ∧
      digitsValue r =
        digitsValue result + 10 ^ (i + j) * (carry + ai * digitsValue (b.drop j)) ∧
      DigitsInRange r ∧ r.length = result.length := by
  induction j, carry, result using mulInner.induct ai b i with
  | case1 j carry result hc hin product ih =>
    rw [mulInner, if_pos hc, if_pos hin]
    have hrij := hr.getD (i + j)
    have hbj := hb.getD j
    have hprod : product = result.getD (i + j) 0 + carry +
        (if j < b.length then ai * b.getD j 0 else 0) := rfl
    have hite : (if j < b.length then ai * b.getD j 0 else 0) =
        ai * (if j < b.length then b.getD j 0 else 0) := by
      split <;> simp
    have hite0 : 0 ≤ (if j < b.length then ai * b.getD j 0 else 0) := by
      split
      · exact mul_nonneg hai.1 hbj.1
      · exact le_refl 0
    have hp0 : 0 ≤ product := by omega
    obtain ⟨h1, h2, h3, h4, _, _⟩ := tmod_tdiv_of_nonneg product hp0
    have hval : digitsValue (result.set (i + j) (product.tmod 10)) +
        10 ^ (i + (j + 1)) * (product.tdiv 10 + ai * digitsValue (b.drop (j + 1))) =
        digitsValue result + 10 ^ (i + j) * (carry + ai * digitsValue (b.drop j)) := by
      rw [digitsValue_set _ _ _ hin, digitsValue_drop b j, ← add_assoc, pow_succ]
      have h5 : product.tmod 10 = product - 10 * product.tdiv 10 := by omega
      rw [h5, hprod, hite]
      ring
    obtain ⟨r, hr1, hr2, hr3, hr4⟩ := ih h3 (hr.set (i + j) h1 h2)
      (by simpa using hlen) (by rw [hval]; simpa using hfit)
    refine ⟨r, hr1, ?_, hr3, ?_⟩
    · rw [hr2, hval]
    · rw [hr4, List.length_set]
  | case2 j carry result hc hout =>
    exfalso
    have hbd := digitsValue_bounds _ (hb.drop j)
    have hres := digitsValue_bounds _ hr
    have hjm : ¬ j < b.length := by
      intro h
      omega
    have hc1 : 1 ≤ carry := by
      rcases hc with h | h
      · exact absurd h hjm
      · omega
    have hpow : (10 : Int) ^ result.length ≤ 10 ^ (i + j) :=
      pow_le_pow_right₀ (by norm_num) (by omega)
    have hprod : 0 ≤ ai * digitsValue (b.drop j) := mul_nonneg hai.1 hbd.1
    have hp : (0 : Int) < 10 ^ (i + j) := by positivity
    have : 10 ^ (i + j) * 1 ≤ 10 ^ (i + j) * (carry + ai * digitsValue (b.drop j)) :=
      mul_le_mul_of_nonneg_left (by omega) (le_of_lt hp)
    omega
  | case3 j carry result hc =>
    rw [mulInner, if_neg hc]
    have hjm : ¬ j < b.length := fun h => hc (Or.inl h)
    have hcarry0 : carry = 0 := by
      by_contra h
      exact hc (Or.inr h)
    have hd : b.drop j = [] := List.drop_eq_nil_of_le (by omega)
    refine ⟨result, rfl, ?_, hr, rfl⟩
    simp [hd, hcarry0]

/-- The outer loop of the multiplication, started on `take i a * b`, ends on `a * b`. -/
theorem mulOuter_spec (a b : List Int) (ha : DigitsInRange a) (hb : DigitsInRange b)
    (n i : Nat) (result : List Int) (hn : i + n = a.length) (hr : DigitsInRange result)
    (hlen : result.length = a.length + b.length)
    (hval : digitsValue result = digitsValue (a.take i) * digitsValue b) :
    ∃ r, mulOuter a b n i result = some r ∧ digitsValue r = digitsValue a * digitsValue b ∧
      DigitsInRange r ∧ r.length = a.length + b.length := by
  induction n generalizing i result with
  | zero =>
    refine ⟨result, rfl, ?_, hr, hlen⟩
    have : a.take i = a := List.take_of_length_le (by omega)
    rw [hval, this]
  | succ n ih =>
    have hta := digitsValue_take_bounds a ha (i + 1)
    have hbb := digitsValue_bounds _ hb
    have hts := digitsValue_take_succ a i
    have hfit : digitsValue result +
        10 ^ (i + 0) * (0 + a.getD i 0 * digitsValue (b.drop 0)) < 10 ^ result.length := by
      have h1 : digitsValue result + 10 ^ (i + 0) * (0 + a.getD i 0 * digitsValue (b.drop 0)) =
          digitsValue (a.take (i + 1)) * digitsValue b := by
        rw [hval, hts]
        simp only [List.drop_zero, Nat.add_zero]
        ring
      rw [h1, hlen]
      have h2 : digitsValue (a.take (i + 1)) * digitsValue b <
          10 ^ (i + 1) * 10 ^ b.length := by
        apply mul_lt_mul'' hta.2 hbb.2 hta.1 hbb.1
      have h3 : (10 : Int) ^ (i + 1) * 10 ^ b.length ≤ 10 ^ (a.length + b.length) := by
        rw [← pow_add]
        exact pow_le_pow_right₀ (by norm_num) (by omega)
      omega
    obtain ⟨r, hr1, hr2, hr3, hr4⟩ := mulInner_spec (a.getD i 0) b (ha.getD i) hb i 0 0 result
      (le_refl 0) hr (by omega) hfit
    simp only [mulOuter, hr1]
    apply ih (i + 1) r (by omega) hr3 (by rw [hr4, hlen])
    rw [hr2, hval, hts]
    simp only [List.drop_zero, Nat.add_zero]
    ring

theorem digits_eq_zero_iff (ds : List Int) :
    (ds.length = 1 ∧ ds[0]? = some 0) ↔ ds = [0] := by
  constructor
  · rintro ⟨hl, h0⟩
    cases ds with
    | nil => simp at hl
    | cons d ds =>
      cases ds with
      | nil =>
        simp at h0
        rw [h0]
      | cons e es => simp at hl
  · intro h
    subst h
    simp

theorem ofLongLong_zero : ofLongLong 0 = ⟨[0], false⟩ := by
  simp [ofLongLong]

/-- Multiplication never indexes outside the vector, is exact and keeps the normal form. -/
theorem mul_spec (x y : BigNum) (hx : NormalForm x) (hy : NormalForm y) :
    ∃ r, mul x y = some r ∧ toInt r = toInt x * toInt y ∧ NormalForm r ∧
      (toInt x = 0 ∨ toInt y = 0 → r = ⟨[0], false⟩) ∧
      (r.isNegative = true ↔ x.isNegative ≠ y.isNegative ∧ toInt x ≠ 0 ∧ toInt y ≠ 0) := by
  have hxb := digitsValue_bounds _ hx.2.1
  have hyb := digitsValue_bounds _ hy.2.1
  by_cases hz : x.digits = [0] ∨ y.digits = [0]
  · have hcond : (x.digits.length = 1 ∧ x.digits[0]? = some 0) ∨
        (y.digits.length = 1 ∧ y.digits[0]? = some 0) := by
      rcases hz with h | h
      · exact Or.inl ((digits_eq_zero_iff _).mpr h)
      · exact Or.inr ((digits_eq_zero_iff _).mpr h)
    have hprod : toInt x * toInt y = 0 := by
      rcases hz with h | h
      · have : toInt x = 0 := by simp [toInt, h]
        rw [this, zero_mul]
      · have : toInt y = 0 := by simp [toInt, h]
        rw [this, mul_zero]
    refine ⟨⟨[0], false⟩, ?_, ?_, ?_, fun _ => rfl, ?_⟩
    · rw [mul, if_pos hcond, ofLongLong_zero]
    · rw [hprod]
      simp [toInt]
    · exact ⟨by simp, by intro d hd; simp at hd; omega, by simp, fun _ => rfl⟩
    · constructor
      · intro h
        simp at h
      · rintro ⟨_, h1, h2⟩
        exact absurd hprod (mul_ne_zero h1 h2)
  · have hxz : x.digits ≠ [0] := fun h => hz (Or.inl h)
    have hyz : y.digits ≠ [0] := fun h => hz (Or.inr h)
    have hcond : ¬ ((x.digits.length = 1 ∧ x.digits[0]? = some 0) ∨
        (y.digits.length = 1 ∧ y.digits[0]? = some 0)) := by
      rintro (h | h)
      · exact hxz ((digits_eq_zero_iff _).mp h)
      · exact hyz ((digits_eq_zero_iff _).mp h)
    have hxp := digitsValue_pos x hx hxz
    have hyp := digitsValue_pos y hy hyz
    obtain ⟨ds, hds1, hds2, hds3, hds4⟩ := mulOuter_spec x.digits y.digits hx.2.1 hy.2.1
      x.digits.length 0 (List.replicate (x.digits.length + y.digits.length) 0) (by omega)
      (digitsInRange_replicate_zero _) (by simp)
      (by simp [digitsValue_replicate_zero])
    have hne : ds ≠ [] := by
      intro h
      rw [h] at hds4
      have := List.length_pos.mpr hx.1
      simp only [List.length_nil] at hds4
      omega
    have hpp : 0 < digitsValue ds := by
      rw [hds2]
      exact mul_pos hxp hyp
    have hnf := normalForm_removeLeadingZeros ⟨ds, decide (x.isNegative ≠ y.isNegative)⟩ hne hds3
    have hti := toInt_removeLeadingZeros ⟨ds, decide (x.isNegative ≠ y.isNegative)⟩
    have hsign : (removeLeadingZeros ⟨ds, decide (x.isNegative ≠ y.isNegative)⟩).isNegative =
        decide (x.isNegative ≠ y.isNegative) := by
      unfold removeLeadingZeros
      simp only
      split
      · rename_i h
        have h0 := (digits_eq_zero_iff _).mp h
        have hv := (removeLeadingZerosLoop_spec ds).1
        rw [h0] at hv
        simp only [digitsValue_cons, digitsValue_nil] at hv
        omega
      · rfl
    have hx0 : toInt x ≠ 0 := by
      simp only [toInt]
      split <;> omega
    have hy0 : toInt y ≠ 0 := by
      simp only [toInt]
      split <;> omega
    refine ⟨removeLeadingZeros ⟨ds, decide (x.isNegative ≠ y.isNegative)⟩, ?_, ?_, hnf, ?_, ?_⟩
    · rw [mul, if_neg hcond, hds1]
    · rw [hti]
      simp only [toInt, hds2]
      cases x.isNegative <;> cases y.isNegative <;> simp
    · rintro (h | h)
      · exact absurd h hx0
      · exact absurd h hy0
    · rw [hsign]
      simp [hx0, hy0]


theorem parseLoop_eq (cs : List Char) (digits : List Int) :
    parseLoop cs digits =
      if ∀ c ∈ cs, isdigit c = true then
        Except.ok (digits ++ cs.map (fun c => (c.toNat : Int) - 48))
      else Except.error "Invalid character in number string" := by
  induction cs generalizing digits with
  | nil => simp [parseLoop]
  | cons c cs ih =>
    by_cases hc : isdigit c = true
    · simp only [parseLoop, hc, Bool.true_eq_false, if_false, ih, List.mem_cons, forall_eq_or_imp,
        true_and, List.map_cons, List.append_assoc, List.singleton_append]
    · simp [parseLoop, hc]

theorem ofString_eq (s : List Char) :
    ofString s =
      if afterSign s = [] then Except.ok ⟨[0], false⟩
      else if ∀ c ∈ afterSign s, isdigit c = true then
        Except.ok (removeLeadingZeros
          ⟨(afterSign s).reverse.map (fun c => (c.toNat : Int) - 48),
            decide (s.head? = some '-')⟩)
      else Except.error "Invalid character in number string" := by
  cases s with
  | nil => simp [ofString, afterSign]
  | cons c0 cs =>
    by_cases hsign : c0 = '-' ∨ c0 = '+'
    · have hstart : (if decide (c0 = '-') = true ∨ c0 = '+' then 1 else 0 : Nat) = 1 := by
        simp [hsign]
      simp only [ofString, hstart, afterSign, hsign, if_true, List.length_cons, List.drop_succ_cons,
        List.drop_zero, parseLoop_eq, List.nil_append, List.head?_cons, Option.some.injEq,
        List.mem_reverse]
      cases cs with
      | nil => simp
      | cons c1 cs =>
        simp only [List.length_cons, ge_iff_le, reduceCtorEq, if_false]
        rw [if_neg (by omega)]
        by_cases hall : ∀ c ∈ c1 :: cs, isdigit c = true
        · rw [if_pos hall, if_pos hall]
        · rw [if_neg hall, if_neg hall]
    · have hstart : (if decide (c0 = '-') = true ∨ c0 = '+' then 1 else 0 : Nat) = 0 := by
        simp [hsign]
      simp only [ofString, hstart, afterSign, hsign, if_false, List.length_cons, List.drop_zero,
        parseLoop_eq, List.nil_append, List.head?_cons, Option.some.injEq, List.mem_reverse,
        reduceCtorEq]
      rw [if_neg (by omega)]
      by_cases hall : ∀ c ∈ c0 :: cs, isdigit c = true
      · rw [if_pos hall, if_pos hall]
      · rw [if_neg hall, if_neg hall]

/-- C16. The string constructor throws `std::invalid_argument` exactly when some character
after the optional leading '+' or '-' is not a decimal digit; the empty string and a string
that is only a sign do not throw and construct the non-negative zero. -/
theorem ofString_throws_iff (s : List Char) :
    ((∃ e, ofString s = Except.error e) ↔ ∃ c ∈ afterSign s, isdigit c = false) ∧
      (∀ e, ofString s = Except.error e → e = "Invalid character in number string") ∧
      ofString [] = Except.ok ⟨[0], false⟩ ∧
      ofString ['+'] = Except.ok ⟨[0], false⟩ ∧
      ofString ['-'] = Except.ok ⟨[0], false⟩ := by
  refine ⟨?_, ?_, ?_, ?_, ?_⟩
  · rw [ofString_eq]
    by_cases h0 : afterSign s = []
    · simp [h0]
    · by_cases hall : ∀ c ∈ afterSign s, isdigit c = true
      · rw [if_neg h0, if_pos hall]
        constructor
        · rintro ⟨e, he⟩
          exact absurd he (by simp)
        · rintro ⟨c, hc, hd⟩
          rw [hall c hc] at hd
          exact absurd hd (by simp)
      · rw [if_neg h0, if_neg hall]
        constructor
        · intro _
          by_contra hne
          apply hall
          intro c hc
          by_contra hd
          exact hne ⟨c, hc, by simpa using hd⟩
        · intro _
          exact ⟨_, rfl⟩
  · intro e he
    rw [ofString_eq] at he
    split at he
    · exact absurd he (by simp)
    · split at he
      · exact absurd he (by simp)
      · exact (Except.error.inj he).symm
  · rfl
  · rw [ofString_eq]
    simp [afterSign]
  · rw [ofString_eq]
    simp [afterSign]


theorem digitChar_facts (d : Int) (h0 : 0 ≤ d) (h9 : d ≤ 9) :
    to_string d = [digitChar d] ∧ ((digitChar d).toNat : Int) - 48 = d ∧
      isdigit (digitChar d) = true ∧ digitChar d ≠ '-' ∧ digitChar d ≠ '+' ∧
      (digitChar d = '0' → d = 0) := by
  interval_cases d <;> decide

theorem isdigit_cases (c : Char) (h : isdigit c = true) :
    c = '0' ∨ c = '1' ∨ c = '2' ∨ c = '3' ∨ c = '4' ∨ c = '5' ∨ c = '6' ∨ c = '7' ∨
      c = '8' ∨ c = '9' := by
  have hk := Char.ofNat_toNat c
  simp only [isdigit, decide_eq_true_eq] at h
  obtain ⟨h1, h2⟩ := h
  generalize c.toNat = k at hk h1 h2
  subst hk
  interval_cases k <;> decide

theorem isdigit_facts (c : Char) (h : isdigit c = true) :
    0 ≤ (c.toNat : Int) - 48 ∧ (c.toNat : Int) - 48 ≤ 9 ∧
      digitChar ((c.toNat : Int) - 48) = c ∧ c ≠ '-' ∧ c ≠ '+' ∧
      ((c.toNat : Int) - 48 = 0 → c = '0') := by
  rcases isdigit_cases c h with h | h | h | h | h | h | h | h | h | h <;> subst h <;> decide

theorem decimalValue_foldl (l : List Char) (acc : Int) :
    l.foldl (fun acc c => 10 * acc + ((c.toNat : Int) - 48)) acc =
      acc * 10 ^ l.length + digitsValue (l.reverse.map (fun c => (c.toNat : Int) - 48)) := by
  induction l generalizing acc with
  | nil => simp
  | cons c cs ih =>
    simp only [List.foldl_cons, ih, List.reverse_cons, List.map_append, List.map_cons,
      List.map_nil, digitsValue_append, List.length_map, List.length_reverse, List.length_cons,
      digitsValue_cons, digitsValue_nil, pow_succ]
    ring

theorem decimalValue_eq (l : List Char) :
    decimalValue l = digitsValue (l.reverse.map (fun c => (c.toNat : Int) - 48)) := by
  unfold decimalValue
  rw [decimalValue_foldl]
  simp

theorem map_digitChar_digitOf (l : List Char) (h : ∀ c ∈ l, isdigit c = true) :
    l.map (fun c => digitChar ((c.toNat : Int) - 48)) = l := by
  induction l with
  | nil => rfl
  | cons c cs ih =>
    have hc := (isdigit_facts c (h c (List.mem_cons_self _ _))).2.2.1
    simp only [List.map_cons, hc, ih (fun x hx => h x (List.mem_cons_of_mem _ hx))]

theorem map_digitOf_digitChar (l : List Int) (h : DigitsInRange l) :
    l.map (fun d => ((digitChar d).toNat : Int) - 48) = l := by
  induction l with
  | nil => rfl
  | cons d ds ih =>
    have hd := h d (List.mem_cons_self _ _)
    have hc := (digitChar_facts d hd.1 hd.2).2.1
    simp only [List.map_cons, hc, ih (fun x hx => h x (List.mem_cons_of_mem _ hx))]

theorem flatten_to_string (l : List Int) (h : DigitsInRange l) :
    (l.map to_string).flatten = l.map digitChar := by
  induction l with
  | nil => rfl
  | cons d ds ih =>
    have hd := h d (List.mem_cons_self _ _)
    have hc := (digitChar_facts d hd.1 hd.2).1
    simp only [List.map_cons, List.flatten_cons, hc, ih (fun x hx => h x (List.mem_cons_of_mem _ hx)),
      List.singleton_append]

theorem digitsInRange_reverse {l : List Int} (h : DigitsInRange l) : DigitsInRange l.reverse :=
  fun d hd => h d (List.mem_reverse.mp hd)

theorem toString_of_range (x : BigNum) (hne : x.digits ≠ []) (hr : DigitsInRange x.digits) :
    toString x = (if x.isNegative then ['-'] else []) ++ x.digits.reverse.map digitChar := by
  unfold toString
  have : x.digits.isEmpty = false := by
    cases hd : x.digits with
    | nil => exact absurd hd hne
    | cons d ds => rfl
  simp only [this, Bool.false_eq_true, if_false]
  rw [flatten_to_string _ (digitsInRange_reverse hr)]

theorem afterSign_digits (l : List Char) (h : ∀ c ∈ l, isdigit c = true) : afterSign l = l := by
  cases l with
  | nil => rfl
  | cons c cs =>
    obtain ⟨_, _, _, h1, h2, _⟩ := isdigit_facts c (h c (List.mem_cons_self _ _))
    simp [afterSign, h1, h2]

theorem head?_digits_ne (l : List Char) (h : ∀ c ∈ l, isdigit c = true) :
    l.head? ≠ some '-' ∧ l.head? ≠ some '+' := by
  cases l with
  | nil => simp
  | cons c cs =>
    obtain ⟨_, _, _, h1, h2, _⟩ := isdigit_facts c (h c (List.mem_cons_self _ _))
    simp [h1, h2]

/-- The string of a value in normal form is canonical and denotes the value. -/
theorem toString_normalForm (x : BigNum) (hx : NormalForm x) :
    isCanonical (toString x) ∧ denoted (toString x) = toInt x := by
  obtain ⟨hne, hr, hlead, hzero⟩ := hx
  have hts := toString_of_range x hne hr
  have hbody : ∀ c ∈ x.digits.reverse.map digitChar, isdigit c = true := by
    intro c hc
    obtain ⟨d, hd, rfl⟩ := List.mem_map.mp hc
    have hd1 := hr d (List.mem_reverse.mp hd)
    exact (digitChar_facts d hd1.1 hd1.2).2.2.1
  have hbne : x.digits.reverse.map digitChar ≠ [] := by
    simpa using hne
  have hafter : afterSign (toString x) = x.digits.reverse.map digitChar := by
    rw [hts]
    cases x.isNegative
    · simpa using afterSign_digits _ hbody
    · simp [afterSign]
  have hhead : (toString x).head? = some '-' ↔ x.isNegative = true := by
    rw [hts]
    cases x.isNegative
    · have := (head?_digits_ne _ hbody).1
      simpa using this
    · simp
  have hplus : (toString x).head? ≠ some '+' := by
    rw [hts]
    cases x.isNegative
    · have := (head?_digits_ne _ hbody).2
      simpa using this
    · simp
  have hval : decimalValue (x.digits.reverse.map digitChar) = digitsValue x.digits := by
    rw [decimalValue_eq, ← List.map_reverse, List.reverse_reverse, List.map_map]
    exact congrArg digitsValue (map_digitOf_digitChar _ hr)
  have hzero_iff : x.digits.reverse.map digitChar = ['0'] → x.digits = [0] := by
    intro h
    have hl : x.digits.length = 1 := by
      have := congrArg List.length h
      simpa using this
    cases hd : x.digits with
    | nil => exact absurd hd hne
    | cons d ds =>
      cases ds with
      | nil =>
        rw [hd] at h
        simp only [List.reverse_cons, List.reverse_nil, List.nil_append, List.map_cons,
          List.map_nil, List.cons.injEq, and_true] at h
        have hd1 := hr d (by rw [hd]; exact List.mem_cons_self _ _)
        rw [(digitChar_facts d hd1.1 hd1.2).2.2.2.2.2 h]
      | cons e es =>
        rw [hd] at hl
        simp at hl
  refine ⟨⟨⟨?_, ?_⟩, hplus, ?_, ?_⟩, ?_⟩
  · rw [hafter]
    exact hbne
  · rw [hafter]
    exact hbody
  · rw [hafter]
    by_cases h1 : 1 < x.digits.length
    · right
      have hl := hlead h1
      rw [List.head?_map, List.head?_reverse]
      intro h
      cases hg : x.digits.getLast? with
      | none => simp [hg] at h
      | some d =>
        rw [hg] at h
        simp only [Option.map_some', Option.some.injEq] at h
        have hd1 := hr d (List.mem_of_getLast?_eq_some hg)
        have := (digitChar_facts d hd1.1 hd1.2).2.2.2.2.2 h
        subst this
        exact hl hg
    · cases hd : x.digits with
      | nil => exact absurd hd hne
      | cons d ds =>
        cases ds with
        | nil =>
          have hd1 := hr d (by rw [hd]; exact List.mem_cons_self _ _)
          by_cases hd0 : d = 0
          · left
            subst hd0
            rfl
          · right
            simp only [List.reverse_cons, List.reverse_nil, List.nil_append, List.map_cons,
              List.map_nil, List.head?_cons, ne_eq, Option.some.injEq]
            intro h
            exact hd0 ((digitChar_facts d hd1.1 hd1.2).2.2.2.2.2 h)
        | cons e es =>
          rw [hd] at h1
          simp at h1
  · rw [hafter]
    intro h hneg
    have := hzero (hzero_iff h)
    rw [hhead.mp hneg] at this
    exact Bool.noConfusion this
  · unfold denoted
    rw [hafter, hval]
    unfold toInt
    by_cases hn : x.isNegative = true
    · rw [if_pos (hhead.mpr hn), if_pos hn]
    · rw [if_neg (fun h => hn (hhead.mp h)), if_neg hn]

/-- The string constructor on a signed decimal string. -/
theorem ofString_signedDecimal (s : List Char) (hs : isSignedDecimal s) :
    ofString s = Except.ok (removeLeadingZeros
        ⟨(afterSign s).reverse.map (fun c => (c.toNat : Int) - 48),
          decide (s.head? = some '-')⟩) ∧
      ((afterSign s).reverse.map (fun c => (c.toNat : Int) - 48)) ≠ [] ∧
      DigitsInRange ((afterSign s).reverse.map (fun c => (c.toNat : Int) - 48)) ∧
      toInt ⟨(afterSign s).reverse.map (fun c => (c.toNat : Int) - 48),
          decide (s.head? = some '-')⟩ = denoted s := by
  obtain ⟨hne, hall⟩ := hs
  refine ⟨?_, ?_, ?_, ?_⟩
  · rw [ofString_eq, if_neg hne, if_pos hall]
  · simpa using hne
  · intro d hd
    obtain ⟨c, hc, rfl⟩ := List.mem_map.mp hd
    have := isdigit_facts c (hall c (List.mem_reverse.mp hc))
    exact ⟨this.1, this.2.1⟩
  · unfold toInt denoted
    rw [decimalValue_eq]
    by_cases h : s.head? = some '-'
    · simp [h]
    · simp [h]


theorem sign_append_afterSign (s : List Char) (h : s.head? ≠ some '+') :
    (if decide (s.head? = some '-') = true then ['-'] else []) ++ afterSign s = s := by
  cases s with
  | nil => simp [afterSign]
  | cons c cs =>
    have hp : c ≠ '+' := by simpa using h
    by_cases hm : c = '-'
    · subst hm
      simp [afterSign]
    · simp [afterSign, hm, hp]

/-- The digits parsed from a canonical string are already in normal form. -/
theorem normalForm_of_canonical (s : List Char) (hc : isCanonical s) :
    NormalForm ⟨(afterSign s).reverse.map (fun c => (c.toNat : Int) - 48),
      decide (s.head? = some '-')⟩ := by
  obtain ⟨hs, _, hlead, hzero⟩ := hc
  obtain ⟨_, hne, hr, _⟩ := ofString_signedDecimal s hs
  have hall := hs.2
  refine ⟨hne, hr, ?_, ?_⟩
  · intro hlen hlast
    simp only [List.length_map, List.length_reverse] at hlen
    simp only [List.getLast?_map, List.getLast?_reverse] at hlast
    rcases hlead with h | h
    · rw [h] at hlen
      simp at hlen
    · cases hh : (afterSign s).head? with
      | none => simp [hh] at hlast
      | some c =>
        rw [hh] at hlast h
        simp only [Option.map_some', Option.some.injEq] at hlast
        have hmem : c ∈ afterSign s := List.mem_of_mem_head? hh
        have := (isdigit_facts c (hall c hmem)).2.2.2.2.2 hlast
        exact h (by rw [this])
  · intro h0
    simp only at h0
    have hbody : afterSign s = ['0'] := by
      cases hb : afterSign s with
      | nil =>
        rw [hb] at h0
        simp at h0
      | cons c cs =>
        cases cs with
        | nil =>
          rw [hb] at h0
          simp only [List.reverse_cons, List.reverse_nil, List.nil_append, List.map_cons,
            List.map_nil, List.cons.injEq, and_true] at h0
          have hmem : c ∈ afterSign s := by
            rw [hb]
            exact List.mem_cons_self _ _
          rw [(isdigit_facts c (hall c hmem)).2.2.2.2.2 h0]
        | cons e es =>
          rw [hb] at h0
          have := congrArg List.length h0
          simp at this
    have := hzero hbody
    simp [this]

/-- C15. For every string made of an optional '+' or '-' followed by one or more decimal
digits, the string constructor does not throw, and `toString()` of the value it builds is a
canonical decimal representation (no '+', no leading zeros, "0" rather than "-0") that
denotes the same integer as the string; when the string is already canonical, `toString()`
gives the string back. -/
theorem string_round_trip (s : List Char) (hs : isSignedDecimal s) :
    ∃ r, ofString s = Except.ok r ∧ isCanonical (toString r) ∧
      denoted (toString r) = denoted s ∧ (isCanonical s → toString r = s) := by
  obtain ⟨hok, hne, hr, hden⟩ := ofString_signedDecimal s hs
  have hnf := normalForm_removeLeadingZeros
    ⟨(afterSign s).reverse.map (fun c => (c.toNat : Int) - 48), decide (s.head? = some '-')⟩
    hne hr
  obtain ⟨hcan, hval⟩ := toString_normalForm _ hnf
  refine ⟨_, hok, hcan, ?_, ?_⟩
  · rw [hval, toInt_removeLeadingZeros, hden]
  · intro hc
    have hn := normalForm_of_canonical s hc
    rw [removeLeadingZeros_of_normalForm _ hn, toString_of_range _ hne hr]
    simp only [← List.map_reverse, List.reverse_reverse, List.map_map]
    have hmap : (afterSign s).map (digitChar ∘ fun c => (c.toNat : Int) - 48) = afterSign s :=
      map_digitChar_digitOf _ hs.2
    rw [hmap]
    exact sign_append_afterSign s hc.2.1

/-- The string "-0042": the constructor builds -42 and `toString()` gives "-42". -/
theorem string_round_trip_witness :
    ∃ r, ofString ['-', '0', '0', '4', '2'] = Except.ok r ∧ isCanonical (toString r) ∧
      denoted (toString r) = denoted ['-', '0', '0', '4', '2'] ∧
      (isCanonical ['-', '0', '0', '4', '2'] → toString r = ['-', '0', '0', '4', '2']) :=
  string_round_trip ['-', '0', '0', '4', '2'] (by decide)


theorem wrap64_neg (n : Int) (h1 : -2 ^ 63 < n) (h2 : n < 0) : wrap64 (-n) = -n := by
  unfold wrap64
  norm_num at h1 ⊢
  omega

theorem ofLongLongLoop_stop (num : Int) (digits : List Int) (h : ¬ 0 < num) :
    ofLongLongLoop num digits = digits := by
  rw [ofLongLongLoop, if_neg h]

theorem ofLongLongLoop_spec (num : Int) (digits : List Int) (hnum : 0 ≤ num) :
    digitsValue (ofLongLongLoop num digits) = digitsValue digits + 10 ^ digits.length * num ∧
      (DigitsInRange digits → DigitsInRange (ofLongLongLoop num digits)) ∧
      (0 < num → (ofLongLongLoop num digits).getLast? ≠ none ∧
        (ofLongLongLoop num digits).getLast? ≠ some 0) := by
  induction num, digits using ofLongLongLoop.induct with
  | case1 num digits hpos ih =>
    obtain ⟨h1, h2, h3, h4, h5, h6⟩ := tmod_tdiv_of_nonneg num hnum
    obtain ⟨ih1, ih2, ih3⟩ := ih h3
    rw [ofLongLongLoop, if_pos hpos]
    refine ⟨?_, ?_, ?_⟩
    · rw [ih1, digitsValue_append]
      simp only [List.length_append, List.length_singleton, digitsValue_cons, digitsValue_nil,
        pow_succ]
      linear_combination (10 ^ digits.length) * h4
    · intro hr
      exact ih2 (hr.append (DigitsInRange.singleton h1 h2))
    · intro _
      by_cases hq : 0 < num.tdiv 10
      · exact ih3 hq
      · rw [ofLongLongLoop_stop _ _ hq]
        have hm : num.tmod 10 ≠ 0 := by omega
        simp [hm]
  | case2 num digits hpos =>
    rw [ofLongLongLoop, if_neg hpos]
    have : num = 0 := by omega
    subst this
    refine ⟨by simp, fun h => h, fun h => absurd h (lt_irrefl 0)⟩

/-- The constructor from `long long` is exact on every value except the least one. -/
theorem ofLongLong_spec (n : Int) (h1 : -2 ^ 63 < n) (h2 : n < 2 ^ 63) :
    NormalForm (ofLongLong n) ∧ toInt (ofLongLong n) = n ∧
      (ofLongLong n).isNegative = decide (n < 0) := by
  have key : ∀ (m : Int) (neg : Bool), 0 < m →
      NormalForm ⟨ofLongLongLoop m [], neg⟩ ∧ digitsValue (ofLongLongLoop m []) = m := by
    intro m neg hm
    obtain ⟨hv, hr, hl⟩ := ofLongLongLoop_spec m [] (le_of_lt hm)
    obtain ⟨hl1, hl2⟩ := hl hm
    have hr1 := hr (fun d hd => absurd hd (List.not_mem_nil d))
    refine ⟨⟨?_, hr1, fun _ => hl2, ?_⟩, by simpa using hv⟩
    · intro h
      simp only at h
      rw [h] at hl1
      exact hl1 rfl
    · intro h
      simp only at h
      rw [h] at hl2
      exact absurd rfl hl2
  rcases lt_trichotomy n 0 with hn | hn | hn
  · have hw := wrap64_neg n h1 hn
    have hne : ¬ (-n = 0) := by omega
    obtain ⟨k1, k2⟩ := key (-n) true (by omega)
    simp only [ofLongLong, hn, if_true, hw, hne, if_false, decide_True]
    refine ⟨k1, ?_, trivial⟩
    simp only [toInt, if_true, k2]
    ring
  · subst hn
    simp only [ofLongLong_zero]
    exact ⟨by decide, by decide, by decide⟩
  · have hnn : ¬ n < 0 := by omega
    have hne : ¬ (n = 0) := by omega
    obtain ⟨k1, k2⟩ := key n false hn
    simp only [ofLongLong, hnn, if_false, hne, decide_False]
    refine ⟨k1, ?_, trivial⟩
    simp only [toInt, Bool.false_eq_true, if_false, k2]

/-- On every `long long` except the least one, `toString()` of the constructed value is the
canonical decimal representation of the argument. -/
theorem toString_ofLongLong (n : Int) (h1 : -2 ^ 63 < n) (h2 : n < 2 ^ 63) :
    isCanonical (toString (ofLongLong n)) ∧ denoted (toString (ofLongLong n)) = n ∧
      ((toString (ofLongLong n)).head? = some '-' ↔ n < 0) := by
  obtain ⟨hnf, hv, hs⟩ := ofLongLong_spec n h1 h2
  obtain ⟨hc, hd⟩ := toString_normalForm _ hnf
  refine ⟨hc, by rw [hd, hv], ?_⟩
  rw [toString_of_range _ hnf.1 hnf.2.1, hs]
  have hbody : ∀ c ∈ (ofLongLong n).digits.reverse.map digitChar, isdigit c = true := by
    intro c hcm
    obtain ⟨d, hd1, rfl⟩ := List.mem_map.mp hcm
    have hd2 := hnf.2.1 d (List.mem_reverse.mp hd1)
    exact (digitChar_facts d hd2.1 hd2.2).2.2.1
  by_cases hn : n < 0
  · simp [hn]
  · have := (head?_digits_ne _ hbody).1
    simpa [hn] using this

/-- C14, the failing input. For the least `long long`, -2^63, the negation wraps around to
-2^63 itself, the digit loop does not run, and the constructor leaves an empty digit vector
with the sign flag set: the value is not in normal form and `toString()` gives "0". -/
theorem ofLongLong_min :
    ofLongLong (-2 ^ 63) = ⟨[], true⟩ ∧ ¬ NormalForm (ofLongLong (-2 ^ 63)) ∧
      toString (ofLongLong (-2 ^ 63)) = ['0'] := by
  have h : ofLongLong (-2 ^ 63) = ⟨[], true⟩ := by
    have hw : wrap64 (- -2 ^ 63) = -2 ^ 63 := by
      unfold wrap64
      norm_num
    have hlt : (-2 ^ 63 : Int) < 0 := by norm_num
    have hne : ¬ ((-2 ^ 63 : Int) = 0) := by norm_num
    simp only [ofLongLong, hlt, if_true, hw, hne, if_false, decide_True]
    rw [ofLongLongLoop_stop _ _ (by norm_num)]
  rw [h]
  exact ⟨rfl, by decide, by decide⟩

/-- The string constructor, when it does not throw, builds a value in normal form. -/
theorem normalForm_ofString (s : List Char) (r : BigNum) (h : ofString s = Except.ok r) :
    NormalForm r := by
  rw [ofString_eq] at h
  split at h
  · have := Except.ok.inj h
    subst this
    decide
  · split at h
    · rename_i hne hall
      have := Except.ok.inj h
      subst this
      apply normalForm_removeLeadingZeros
      · simpa using hne
      · intro d hd
        obtain ⟨c, hc, rfl⟩ := List.mem_map.mp hd
        have := isdigit_facts c (hall c (List.mem_reverse.mp hc))
        exact ⟨this.1, this.2.1⟩
    · exact absurd h (by simp)

/-- C11. For all `BigNum` a and b in normal form, the integer denoted by `a + b` is the sum
of the integers denoted by a and b, whatever the signs and lengths. -/
theorem add_exact (a b : BigNum) (ha : NormalForm a) (hb : NormalForm b) :
    toInt (add a b) = toInt a + toInt b :=
  (add_spec a b ha hb).1

/-- The test `e + f` of `main`: 42 + (-24). -/
theorem add_exact_witness :
    NormalForm ⟨[2, 4], false⟩ ∧ NormalForm ⟨[4, 2], true⟩ ∧
      toInt (add ⟨[2, 4], false⟩ ⟨[4, 2], true⟩) =
        toInt ⟨[2, 4], false⟩ + toInt ⟨[4, 2], true⟩ :=
  ⟨by decide, by decide, add_exact ⟨[2, 4], false⟩ ⟨[4, 2], true⟩ (by decide) (by decide)⟩

/-- C12. For all `BigNum` a and b in normal form, the integer denoted by `a - b` is the
difference of the integers denoted by a and b, whatever the signs and whichever of the two
is larger in absolute value. -/
theorem sub_exact (a b : BigNum) (ha : NormalForm a) (hb : NormalForm b) :
    toInt (sub a b) = toInt a - toInt b :=
  (sub_spec a b ha hb).1

/-- The subtraction 7 - 123, where the second operand is the larger one. -/
theorem sub_exact_witness :
    NormalForm ⟨[7], false⟩ ∧ NormalForm ⟨[3, 2, 1], false⟩ ∧
      toInt (sub ⟨[7], false⟩ ⟨[3, 2, 1], false⟩) =
        toInt ⟨[7], false⟩ - toInt ⟨[3, 2, 1], false⟩ :=
  ⟨by decide, by decide, sub_exact ⟨[7], false⟩ ⟨[3, 2, 1], false⟩ (by decide) (by decide)⟩

/-- C13. For all `BigNum` a and b in normal form, `a * b` is computed without indexing
outside the result vector and denotes the product of the integers denoted by a and b; when
a or b is zero the result is the non-negative zero; the result is negative exactly when the
operands have different signs and neither is zero. -/
theorem mul_exact (a b : BigNum) (ha : NormalForm a) (hb : NormalForm b) :
    ∃ r, mul a b = some r ∧ toInt r = toInt a * toInt b ∧
      (toInt a = 0 ∨ toInt b = 0 → r = ⟨[0], false⟩) ∧
      (r.isNegative = true ↔ a.isNegative ≠ b.isNegative ∧ toInt a ≠ 0 ∧ toInt b ≠ 0) := by
  obtain ⟨r, h1, h2, _, h4, h5⟩ := mul_spec a b ha hb
  exact ⟨r, h1, h2, h4, h5⟩

/-- The test `e * f` of `main`: 42 * (-24). -/
theorem mul_exact_witness :
    NormalForm ⟨[2, 4], false⟩ ∧ NormalForm ⟨[4, 2], true⟩ ∧
      ∃ r, mul ⟨[2, 4], false⟩ ⟨[4, 2], true⟩ = some r ∧
        toInt r = toInt ⟨[2, 4], false⟩ * toInt ⟨[4, 2], true⟩ ∧
        (toInt ⟨[2, 4], false⟩ = 0 ∨ toInt ⟨[4, 2], true⟩ = 0 → r = ⟨[0], false⟩) ∧
        (r.isNegative = true ↔ (⟨[2, 4], false⟩ : BigNum).isNegative ≠
          (⟨[4, 2], true⟩ : BigNum).isNegative ∧
          toInt ⟨[2, 4], false⟩ ≠ 0 ∧ toInt ⟨[4, 2], true⟩ ≠ 0) :=
  ⟨by decide, by decide, mul_exact ⟨[2, 4], false⟩ ⟨[4, 2], true⟩ (by decide) (by decide)⟩

/-- C19. Normal form is an invariant: the default constructor builds a value in normal
form, so does the string constructor whenever it does not throw, and `operator+`,
`operator-` and `operator*` on operands in normal form give a result in normal form. -/
theorem normalForm_invariant (a b : BigNum) (s : List Char) (ha : NormalForm a)
    (hb : NormalForm b) :
    NormalForm BigNum.new ∧ (∀ r, ofString s = Except.ok r → NormalForm r) ∧
      NormalForm (add a b) ∧ NormalForm (sub a b) ∧
      ∃ r, mul a b = some r ∧ NormalForm r := by
  obtain ⟨r, h1, _, h3, _, _⟩ := mul_spec a b ha hb
  exact ⟨by decide, fun r h => normalForm_ofString s r h, (add_spec a b ha hb).2,
    (sub_spec a b ha hb).2, r, h1, h3⟩

/-- The operands 99 and -1 and the string "+007". -/
theorem normalForm_invariant_witness :
    NormalForm ⟨[9, 9], false⟩ ∧ NormalForm ⟨[1], true⟩ ∧
      (NormalForm BigNum.new ∧
        (∀ r, ofString ['+', '0', '0', '7'] = Except.ok r → NormalForm r) ∧
        NormalForm (add ⟨[9, 9], false⟩ ⟨[1], true⟩) ∧
        NormalForm (sub ⟨[9, 9], false⟩ ⟨[1], true⟩) ∧
        ∃ r, mul ⟨[9, 9], false⟩ ⟨[1], true⟩ = some r ∧ NormalForm r) :=
  ⟨by decide, by decide,
    normalForm_invariant ⟨[9, 9], false⟩ ⟨[1], true⟩ ['+', '0', '0', '7'] (by decide)
      (by decide)⟩

end BigNum


/-! ## Perceptron -/

theorem inner_product_eq (xs ws : List ℚ) (acc : ℚ) :
    Perceptron.inner_product xs ws acc = acc + (List.zipWith (fun x w => x * w) xs ws).sum := by
  induction xs generalizing ws acc with
  | nil => simp [Perceptron.inner_product]
  | cons x xs ih =>
    cases ws with
    | nil => simp [Perceptron.inner_product]
    | cons w ws =>
      simp only [Perceptron.inner_product, ih, List.zipWith_cons_cons, List.sum_cons]
      ring

theorem updateWeights_eq (lr err : ℚ) (inputs ws : List ℚ) (i : Nat)
    (h : i + ws.length ≤ inputs.length) :
    Perceptron.updateWeights lr err inputs i ws =
      some (List.zipWith (fun w x => w + lr * err * x) ws (inputs.drop i)) := by
  induction ws generalizing i with
  | nil => simp [Perceptron.updateWeights]
  | cons w ws ih =>
    simp only [List.length_cons] at h
    have hi : i < inputs.length := by omega
    have hd : inputs.drop i = inputs[i] :: inputs.drop (i + 1) := by
      rw [List.drop_eq_getElem_cons hi]
    simp only [Perceptron.updateWeights, List.getElem?_eq_getElem hi]
    rw [ih (i + 1) (by omega), hd, List.zipWith_cons_cons]

/-- C17. `predict` returns -1 exactly when the number of inputs differs from the number of
weights; otherwise it returns 1 when the sum of `inputs[i] * weights[i]` plus the bias is at
least 0 and 0 otherwise, so on matching lengths the result is 0 or 1. -/
theorem predict_spec (p : Perceptron) (inputs : List ℚ) :
    (p.predict inputs = -1 ↔ inputs.length ≠ p.weights.length) ∧
      (inputs.length = p.weights.length →
        p.predict inputs =
          if (List.zipWith (fun x w => x * w) inputs p.weights).sum + p.bias ≥ 0 then 1 else 0) ∧
      (inputs.length = p.weights.length → p.predict inputs = 0 ∨ p.predict inputs = 1) := by
  by_cases h : inputs.length = p.weights.length
  · simp only [Perceptron.predict, h, ne_eq, not_true_eq_false, if_false,
      Perceptron.step_function, inner_product_eq, zero_add]
    split <;> simp
  · simp [Perceptron.predict, h]

/-- C18. On an inputs vector at least as long as the weights (in particular one of the same
length), `train(inputs, target)` adds `learning_rate * (target - prediction) * inputs[i]` to
every weight `i` and `learning_rate * (target - prediction)` to the bias, where `prediction`
is `predict(inputs)`; when `target` equals the prediction every weight and the bias are
unchanged. -/
theorem train_spec (p : Perceptron) (inputs : List ℚ) (target : Int)
    (hlen : p.weights.length ≤ inputs.length) :
    ∃ p1, p.train inputs target = some p1 ∧
      p1.weights = List.zipWith
        (fun w x => w + p.learning_rate * ((target - p.predict inputs : Int) : ℚ) * x)
        p.weights inputs ∧
      p1.weights.length = p.weights.length ∧
      (∀ i, i < p.weights.length → p1.weights.getD i 0 =
        p.weights.getD i 0 +
          p.learning_rate * ((target - p.predict inputs : Int) : ℚ) * inputs.getD i 0) ∧
      p1.bias = p.bias + p.learning_rate * ((target - p.predict inputs : Int) : ℚ) ∧
      p1.learning_rate = p.learning_rate ∧
      (target = p.predict inputs → p1 = p) := by
  have hu := updateWeights_eq p.learning_rate ((target - p.predict inputs : Int) : ℚ) inputs
    p.weights 0 (by omega)
  simp only [List.drop_zero] at hu
  refine ⟨⟨List.zipWith
      (fun w x => w + p.learning_rate * ((target - p.predict inputs : Int) : ℚ) * x)
      p.weights inputs, p.bias + p.learning_rate * ((target - p.predict inputs : Int) : ℚ),
      p.learning_rate⟩, by simp only [Perceptron.train, hu], rfl, by simpa using hlen, ?_, rfl,
      rfl, ?_⟩
  · intro i hi
    have hi2 : i < inputs.length := by omega
    simp [List.getD_eq_getElem?_getD, List.getElem?_eq_getElem, hi, hi2, List.getElem_zipWith]
  · intro ht
    obtain ⟨ws, b, lr⟩ := p
    simp only [ht, sub_self, Int.cast_zero, mul_zero, zero_mul, add_zero]
    simp only [Perceptron.mk.injEq, and_true]
    simp only at hlen
    clear hu ht
    induction ws generalizing inputs with
    | nil => simp
    | cons w ws ih =>
      cases inputs with
      | nil => simp at hlen
      | cons x xs =>
        simp only [List.zipWith_cons_cons, List.cons.injEq, true_and]
        exact ih xs (by simpa using hlen)

/-- The AND-gate sample `{1, 1}` with target 1 on a perceptron with two weights. -/
theorem train_spec_witness :
    ∃ p1, (⟨[1 / 2, 1 / 4], -1, 1 / 100⟩ : Perceptron).train [1, 1] 1 = some p1 ∧
      p1.weights = List.zipWith
        (fun w x => w + (⟨[1 / 2, 1 / 4], -1, 1 / 100⟩ : Perceptron).learning_rate *
          ((1 - (⟨[1 / 2, 1 / 4], -1, 1 / 100⟩ : Perceptron).predict [1, 1] : Int) : ℚ) * x)
        (⟨[1 / 2, 1 / 4], -1, 1 / 100⟩ : Perceptron).weights [1, 1] ∧
      p1.weights.length = (⟨[1 / 2, 1 / 4], -1, 1 / 100⟩ : Perceptron).weights.length ∧
      (∀ i, i < (⟨[1 / 2, 1 / 4], -1, 1 / 100⟩ : Perceptron).weights.length →
        p1.weights.getD i 0 =
          (⟨[1 / 2, 1 / 4], -1, 1 / 100⟩ : Perceptron).weights.getD i 0 +
            (⟨[1 / 2, 1 / 4], -1, 1 / 100⟩ : Perceptron).learning_rate *
              ((1 - (⟨[1 / 2, 1 / 4], -1, 1 / 100⟩ : Perceptron).predict [1, 1] : Int) : ℚ) *
              ([1, 1] : List ℚ).getD i 0) ∧
      p1.bias = (⟨[1 / 2, 1 / 4], -1, 1 / 100⟩ : Perceptron).bias +
        (⟨[1 / 2, 1 / 4], -1, 1 / 100⟩ : Perceptron).learning_rate *
          ((1 - (⟨[1 / 2, 1 / 4], -1, 1 / 100⟩ : Perceptron).predict [1, 1] : Int) : ℚ) ∧
      p1.learning_rate = (⟨[1 / 2, 1 / 4], -1, 1 / 100⟩ : Perceptron).learning_rate ∧
      (1 = (⟨[1 / 2, 1 / 4], -1, 1 / 100⟩ : Perceptron).predict [1, 1] →
        p1 = (⟨[1 / 2, 1 / 4], -1, 1 / 100⟩ : Perceptron)) :=
  train_spec ⟨[1 / 2, 1 / 4], -1, 1 / 100⟩ [1, 1] 1 (by decide)
